import Mathlib

/-!
Verification of the `recorder` package of the mars repository (a MITM-proxy
transaction recorder written in Go) against its natural-language specification.

The development shallowly embeds the Go source:

* Go's `encoding/json` generic decoding (`json.Unmarshal` into `interface{}`)
  and encoding (`json.Marshal`) are modelled by `jsonUnmarshal` / `jsonMarshal`
  over an inductive `Json` value type.  A decoded Go value stores JSON objects
  as unordered `map[string]interface{}`; `json.Marshal` emits object keys in
  sorted (byte-lexicographic) order.  We model an object as an association
  list; the decoder inserts keys in sorted order with last-wins replacement
  (`mInsert`), which is observably identical to Go's map plus sorted emission.
  Go decodes JSON numbers to `float64` and re-encodes them in a canonical
  decimal form; since none of the verified claims depend on numeric
  normalisation we store the numeric literal verbatim (`Json.num`), which
  round-trips through our encoder exactly as Go's canonical forms round-trip
  through Go's.  Go strings are byte slices; we model only valid-UTF-8 input
  (a Lean `String`), byte-lexicographic string order coincides with
  code-point order, and a byte-level prefix of valid UTF-8 is a code-point
  prefix, so `strings.HasPrefix` and key sorting are modelled on characters.
* Failed single-form type assertions (Go run-time panics) are made explicit
  with the `GoResult.panic` constructor.
* One-shot readers (`resp.Body`) are modelled as a buffer plus a consumed
  flag (`BodyStream`): `ioutil.ReadAll` returns the remaining bytes and
  leaves the stream exhausted.
-/

/-- Character code of `c` as a natural number (Go byte/rune value for ASCII). -/
def chCode (c : Char) : Nat := c.toNat

/-- Whitespace recognised by Go's `unicode.IsSpace` (used by `strings.TrimSpace`). -/
def goIsSpace (c : Char) : Bool :=
  chCode c = 9 || chCode c = 10 || chCode c = 11 || chCode c = 12 || chCode c = 13 ||
  chCode c = 32 || chCode c = 0x85 || chCode c = 0xA0 || chCode c = 0x1680 ||
  (0x2000 ≤ chCode c && chCode c ≤ 0x200A) || chCode c = 0x2028 || chCode c = 0x2029 ||
  chCode c = 0x202F || chCode c = 0x205F || chCode c = 0x3000

/-- Go `strings.TrimSpace` on a character list: drop leading and trailing space. -/
def goTrimSpace (s : List Char) : List Char :=
  ((s.dropWhile goIsSpace).reverse.dropWhile goIsSpace).reverse

/-- Prefix test on character lists (Go `strings.HasPrefix` on valid UTF-8). -/
def listIsPre : List Char → List Char → Bool
  | [], _ => true
  | _ :: _, [] => false
  | p :: ps, c :: cs => p = c && listIsPre ps cs

/-- Go `strings.HasPrefix s pre`. -/
def strHasPre (s pre : String) : Bool := listIsPre pre.data s.data

/-- Go `strings.Split s ";"`: split at every semicolon; always nonempty. -/
def goSplitSemi : List Char → List (List Char)
  | [] => [[]]
  | c :: t =>
    if c = ';' then [] :: goSplitSemi t
    else
      match goSplitSemi t with
      | s :: ss => (c :: s) :: ss
      | [] => [[c]]

/-- Byte/code-point lexicographic strict order on character lists (Go `<` on strings). -/
def strLtCh : List Char → List Char → Bool
  | [], [] => false
  | [], _ :: _ => true
  | _ :: _, [] => false
  | x :: xs, y :: ys => if x = y then strLtCh xs ys else decide (x < y)

/-- Key order used by Go's `json.Marshal` when emitting map keys. -/
def keyLt (a b : String) : Bool := strLtCh a.data b.data

/-- Generic JSON value, the model of a Go `interface{}` produced by
`json.Unmarshal`: `null`, `bool`, number (literal kept verbatim), string,
`[]interface\x7b\x7d`, and `map[string]interface\x7b\x7d` as a key-sorted
association list. -/
inductive Json where
  | null : Json
  | bool (b : Bool) : Json
  | num (lit : String) : Json
  | str (s : String) : Json
  | arr (elems : List Json) : Json
  | obj (members : List (String × Json)) : Json
deriving Repr

/-- Lookup in a JSON object, the model of indexing a Go map (`m[key]`). -/
def mLookup : List (String × Json) → String → Option Json
  | [], _ => none
  | (k, v) :: t, key => if k = key then some v else mLookup t key

/-- Insertion into a JSON object, the model of Go map assignment
(`m[key] = val`): replaces an existing binding, otherwise inserts keeping the
list sorted by `keyLt` (Go maps are unordered and marshalled sorted; a sorted
list realises the same observable behaviour). -/
def mInsert : List (String × Json) → String → Json → List (String × Json)
  | [], key, val => [(key, val)]
  | (k, v) :: t, key, val =>
    if keyLt key k then (key, val) :: (k, v) :: t
    else if key = k then (key, val) :: t
    else (k, v) :: mInsert t key val

/-- Rebuild an association list through Go-map insertion order (used to model
building a `map[string]interface\x7b\x7d` from decoded members, last key wins). -/
def mOfList (l : List (String × Json)) : List (String × Json) :=
  l.foldl (fun acc kv => mInsert acc kv.1 kv.2) []

/-- Lowercase hexadecimal digit character, as used by Go's JSON encoder. -/
def hexDigitCh (n : Nat) : Char :=
  if n < 10 then Char.ofNat (48 + n) else Char.ofNat (87 + n)

/-- Escape of a single character by Go's `json.Marshal` string encoder
(HTML escaping on, the `json.Marshal` default): `"` `\` and the short
control escapes get two-character forms, other control characters and the
HTML-significant characters get `\u00xx` forms, U+2028/U+2029 get `\u202x`
forms, and every other character is emitted verbatim. -/
def escChar (c : Char) : List Char :=
  if c = '"' then ['\\', '"']
  else if c = '\\' then ['\\', '\\']
  else if c = '\n' then ['\\', 'n']
  else if c = '\r' then ['\\', 'r']
  else if c = '\t' then ['\\', 't']
  else if chCode c < 0x20 then
    ['\\', 'u', '0', '0', hexDigitCh (chCode c / 16), hexDigitCh (chCode c % 16)]
  else if c = '<' then ['\\', 'u', '0', '0', '3', 'c']
  else if c = '>' then ['\\', 'u', '0', '0', '3', 'e']
  else if c = '&' then ['\\', 'u', '0', '0', '2', '6']
  else if chCode c = 0x2028 then ['\\', 'u', '2', '0', '2', '8']
  else if chCode c = 0x2029 then ['\\', 'u', '2', '0', '2', '9']
  else [c]

/-- Escape a whole string body (without the surrounding quotes). -/
def escapeChars (cs : List Char) : List Char :=
  cs.foldr (fun c acc => escChar c ++ acc) []

mutual

/-- Compact emission of a JSON value, character for character what Go's
`json.Marshal` writes, except that object members are emitted in list order:
`jsonMarshal` below first key-sorts every object via `canonOrder`, which
together with this emission models Go's sorted-key map marshalling. -/
def marshalChars : Json → List Char
  | .null => "null".data
  | .bool true => "true".data
  | .bool false => "false".data
  | .num lit => lit.data
  | .str s => '"' :: (escapeChars s.data ++ ['"'])
  | .arr xs => '[' :: (itemsChars xs ++ [']'])
  | .obj ms => '{' :: (membersChars ms ++ ['}'])

/-- Comma-separated emission of array elements. -/
def itemsChars : List Json → List Char
  | [] => []
  | [x] => marshalChars x
  | x :: y :: t => marshalChars x ++ ',' :: itemsChars (y :: t)

/-- Comma-separated emission of object members (`"key":value`). -/
def membersChars : List (String × Json) → List Char
  | [] => []
  | [(k, v)] => '"' :: (escapeChars k.data ++ '"' :: ':' :: marshalChars v)
  | (k, v) :: kv :: t =>
    ('"' :: (escapeChars k.data ++ '"' :: ':' :: marshalChars v)) ++ ',' :: membersChars (kv :: t)

end

mutual

/-- Key-sort every object of a JSON value through Go-map insertion
(`mOfList`), modelling that a decoded Go value holds objects as maps which
`json.Marshal` emits in sorted key order. -/
def canonOrder : Json → Json
  | .obj ms => .obj (mOfList (canonMembers ms))
  | .arr xs => .arr (canonItems xs)
  | .null => .null
  | .bool b => .bool b
  | .num lit => .num lit
  | .str s => .str s

/-- Pointwise `canonOrder` over object members. -/
def canonMembers : List (String × Json) → List (String × Json)
  | [] => []
  | (k, v) :: t => (k, canonOrder v) :: canonMembers t

/-- Pointwise `canonOrder` over array elements. -/
def canonItems : List Json → List Json
  | [] => []
  | x :: t => canonOrder x :: canonItems t

end

/-- Go `json.Marshal` of a decoded value: sorted-key compact emission.
Total here because marshalling a value produced by `json.Unmarshal` into
`interface\x7b\x7d` cannot fail in Go (its failure modes are NaN/Inf floats and
unsupported types, which `Unmarshal` never produces). -/
def jsonMarshal (v : Json) : String := String.mk (marshalChars (canonOrder v))

/-- JSON structural whitespace accepted between tokens by Go's scanner. -/
def isJsonWs (c : Char) : Bool := c = ' ' || c = '\t' || c = '\n' || c = '\r'

/-- Skip JSON structural whitespace. -/
def skipWs (s : List Char) : List Char := s.dropWhile isJsonWs

/-- Hexadecimal digit test (Go `getu4` accepts both cases). -/
def isHexCh (c : Char) : Bool :=
  ('0' ≤ c && c ≤ '9') || ('a' ≤ c && c ≤ 'f') || ('A' ≤ c && c ≤ 'F')

/-- Value of a hexadecimal digit character. -/
def hexVal (c : Char) : Nat :=
  if '0' ≤ c && c ≤ '9' then chCode c - 48
  else if 'a' ≤ c && c ≤ 'f' then chCode c - 87
  else chCode c - 55

/-- Prepend a character to the content of a string-body parse. -/
def consCh (c : Char) : Option (List Char × List Char) → Option (List Char × List Char)
  | none => none
  | some (cs, rest) => some (c :: cs, rest)

/-- Parse the body of a JSON string literal after the opening quote, Go's
scanner plus `unquote`: ends at the closing quote; backslash escapes including
`\uXXXX` with UTF-16 surrogate-pair combination, a lone or unpaired surrogate
decoding to U+FFFD with only the first escape consumed (Go `utf16.DecodeRune`
failure); raw control characters below U+0020 are rejected.  Returns the
decoded content and the input after the closing quote. -/
def parseStrBody : Nat → List Char → Option (List Char × List Char)
  | 0, _ => none
  | _ + 1, [] => none
  | f + 1, c :: rest =>
    if c = '"' then some ([], rest)
    else if c = '\\' then
      match rest with
      | [] => none
      | e :: t =>
        if e = '"' then consCh '"' (parseStrBody f t)
        else if e = '\\' then consCh '\\' (parseStrBody f t)
        else if e = '/' then consCh '/' (parseStrBody f t)
        else if e = 'b' then consCh (Char.ofNat 8) (parseStrBody f t)
        else if e = 'f' then consCh (Char.ofNat 12) (parseStrBody f t)
        else if e = 'n' then consCh '\n' (parseStrBody f t)
        else if e = 'r' then consCh '\r' (parseStrBody f t)
        else if e = 't' then consCh '\t' (parseStrBody f t)
        else if e = 'u' then
          match t with
          | h1 :: h2 :: h3 :: h4 :: t₂ =>
            if isHexCh h1 && isHexCh h2 && isHexCh h3 && isHexCh h4 then
              let n := hexVal h1 * 4096 + hexVal h2 * 256 + hexVal h3 * 16 + hexVal h4
              if 0xD800 ≤ n && n < 0xDC00 then
                match t₂ with
                | b1 :: b2 :: g1 :: g2 :: g3 :: g4 :: t₃ =>
                  if b1 = '\\' && b2 = 'u' && isHexCh g1 && isHexCh g2 && isHexCh g3 && isHexCh g4 then
                    let m := hexVal g1 * 4096 + hexVal g2 * 256 + hexVal g3 * 16 + hexVal g4
                    if 0xDC00 ≤ m && m < 0xE000 then
                      consCh (Char.ofNat (0x10000 + (n - 0xD800) * 1024 + (m - 0xDC00))) (parseStrBody f t₃)
                    else consCh (Char.ofNat 0xFFFD) (parseStrBody f (b1 :: b2 :: g1 :: g2 :: g3 :: g4 :: t₃))
                  else consCh (Char.ofNat 0xFFFD) (parseStrBody f (b1 :: b2 :: g1 :: g2 :: g3 :: g4 :: t₃))
                | _ => consCh (Char.ofNat 0xFFFD) (parseStrBody f t₂)
              else if 0xDC00 ≤ n && n < 0xE000 then consCh (Char.ofNat 0xFFFD) (parseStrBody f t₂)
              else consCh (Char.ofNat n) (parseStrBody f t₂)
            else none
          | _ => none
        else none
    else if chCode c < 0x20 then none
    else consCh c (parseStrBody f rest)

/-- Optional fraction of a number literal: a `.` must be followed by at
least one digit (Go scanner); no `.` consumes nothing. -/
def parseFrac : List Char → Option (List Char × List Char)
  | '.' :: t =>
    let ds := t.takeWhile Char.isDigit
    if ds = [] then none else some ('.' :: ds, t.dropWhile Char.isDigit)
  | s => some ([], s)

/-- Mandatory digit run of an exponent after its marker and optional sign. -/
def expDigits (e : Char) (sgn : List Char) (t₁ : List Char) : Option (List Char × List Char) :=
  let ds := t₁.takeWhile Char.isDigit
  if ds = [] then none else some (e :: sgn ++ ds, t₁.dropWhile Char.isDigit)

/-- Optional exponent of a number literal: `e`/`E`, an optional sign, and at
least one digit (Go scanner); any other continuation consumes nothing. -/
def parseExpPart : List Char → Option (List Char × List Char)
  | [] => some ([], [])
  | e :: t =>
    if e = 'e' || e = 'E' then
      match t with
      | '+' :: t₁ => expDigits e ['+'] t₁
      | '-' :: t₁ => expDigits e ['-'] t₁
      | _ => expDigits e [] t
    else some ([], e :: t)

/-- Completion of a number literal after its integer part: optional fraction
then optional exponent, exactly the continuations Go's scanner accepts. -/
def numTail (intPart : List Char) (s : List Char) : Option (List Char × List Char) :=
  match parseFrac s with
  | none => none
  | some (fracPart, s₁) =>
    match parseExpPart s₁ with
    | none => none
    | some (expPart, s₂) => some (intPart ++ fracPart ++ expPart, s₂)

/-- Optional leading minus sign of a number literal. -/
def negSplit : List Char → List Char × List Char
  | '-' :: t => (['-'], t)
  | s => ([], s)

/-- Integer part of a number literal: a single `0`, or a nonzero digit
followed by a maximal digit run (Go scanner: no leading zeros). -/
def parseInt : List Char → Option (List Char × List Char)
  | '0' :: t => some (['0'], t)
  | c :: t =>
    if c.isDigit then some (c :: t.takeWhile Char.isDigit, t.dropWhile Char.isDigit) else none
  | [] => none

/-- Parse a JSON number literal (Go scanner grammar
`-?(0|[1-9][0-9]*)(\.[0-9]+)?([eE][+-]?[0-9]+)?`), returning the literal
characters and the rest of the input. -/
def parseNum (s : List Char) : Option (List Char × List Char) :=
  let (neg, s₁) := negSplit s
  match parseInt s₁ with
  | none => none
  | some (ip, s₂) => numTail (neg ++ ip) s₂

/-- Match an exact keyword tail (the `ull` of `null` etc.). -/
def expectChars : List Char → List Char → Option (List Char)
  | [], s => some s
  | p :: ps, c :: cs => if p = c then expectChars ps cs else none
  | _ :: _, [] => none

/-- Head test on the first character of the remaining input. -/
def headIs (s : List Char) (c : Char) : Bool := s.head? = some c

mutual

/-- Fueled recursive-descent parse of one JSON value, the model of Go's
scanner/decoder for decoding into `interface\x7b\x7d`: leading whitespace,
then `null`/`true`/`false`, a string, an array, an object, or a number.
Objects are built through Go-map insertion (`mOfList`).  The fuel only bounds
recursion depth; `jsonUnmarshal` supplies fuel exceeding what any input of its
length can consume. -/
def parseVal : Nat → List Char → Option (Json × List Char)
  | 0, _ => none
  | m + 1, s =>
    match skipWs s with
    | [] => none
    | c :: t =>
      if c = 'n' then (expectChars ['u', 'l', 'l'] t).map (fun r => (Json.null, r))
      else if c = 't' then (expectChars ['r', 'u', 'e'] t).map (fun r => (Json.bool true, r))
      else if c = 'f' then (expectChars ['a', 'l', 's', 'e'] t).map (fun r => (Json.bool false, r))
      else if c = '"' then (parseStrBody (t.length + 1) t).map (fun p => (Json.str (String.mk p.1), p.2))
      else if c = '[' then
        let t₁ := skipWs t
        if headIs t₁ ']' then some (Json.arr [], t₁.tail)
        else (parseArrItems m t₁).map (fun p => (Json.arr p.1, p.2))
      else if c = '{' then
        let t₁ := skipWs t
        if headIs t₁ '}' then some (Json.obj [], t₁.tail)
        else (parseObjItems m t₁).map (fun p => (Json.obj (mOfList p.1), p.2))
      else if c = '-' || c.isDigit then (parseNum (c :: t)).map (fun p => (Json.num (String.mk p.1), p.2))
      else none

/-- Fueled parse of the element list of a nonempty JSON array, after `[`:
`value (, value)* ]`. -/
def parseArrItems : Nat → List Char → Option (List Json × List Char)
  | 0, _ => none
  | m + 1, s =>
    match parseVal m s with
    | none => none
    | some (v, rest) =>
      let r := skipWs rest
      if headIs r ',' then (parseArrItems m r.tail).map (fun p => (v :: p.1, p.2))
      else if headIs r ']' then some ([v], r.tail)
      else none

/-- Fueled parse of the member list of a nonempty JSON object, after `\x7b`:
`"key" : value (, "key" : value)* \x7d`, members returned in textual order. -/
def parseObjItems : Nat → List Char → Option (List (String × Json) × List Char)
  | 0, _ => none
  | m + 1, s =>
    match skipWs s with
    | c :: t =>
      if c = '"' then
        match parseStrBody (t.length + 1) t with
        | none => none
        | some (key, rest₁) =>
          let r₁ := skipWs rest₁
          if headIs r₁ ':' then
            match parseVal m r₁.tail with
            | none => none
            | some (v, rest₂) =>
              let r₂ := skipWs rest₂
              if headIs r₂ ',' then (parseObjItems m r₂.tail).map (fun p => ((String.mk key, v) :: p.1, p.2))
              else if headIs r₂ '}' then some ([(String.mk key, v)], r₂.tail)
              else none
          else none
      else none
    | [] => none

end

/-- Go `json.Unmarshal(body, &jsonObj)` with `jsonObj : interface\x7b\x7d`:
parse exactly one JSON value, allowing only trailing whitespace.  `none`
models a returned decoding error. -/
def jsonUnmarshal (body : String) : Option Json :=
  match parseVal (2 * body.data.length + 2) body.data with
  | none => none
  | some (v, rest) => if skipWs rest = [] then some v else none

/-- Outcome of a Go function call that can fail a single-form type assertion:
either a normal return or a run-time panic. -/
inductive GoResult (α : Type) where
  | ok (val : α) : GoResult α
  | panic (msg : String) : GoResult α
deriving Repr

/-- Whether a `GoResult` is a run-time panic. -/
def GoResult.isPanic {α : Type} : GoResult α → Bool
  | .ok _ => false
  | .panic _ => true

/-- Setting-id prefix matched by the rewrite (`RewriteBody` source constant). -/
def settingPre : String := "DigitalSignage.PlayEnabled"

/-- Per-record body of the `for` loop of `Recorder.RewriteBody`: a record that
is a JSON object with a string-valued `settingId` whose value has prefix
`DigitalSignage.PlayEnabled` gets its `value` key overwritten with the string
`"true"` (map assignment, added when absent); anything else is untouched.
Returns the (possibly) updated record and whether it matched. -/
def rwElem (e : Json) : Json × Bool :=
  match e with
  | .obj em =>
    match mLookup em "settingId" with
    | some (.str key) =>
      if strHasPre key settingPre then (.obj (mInsert em "value" (.str "true")), true)
      else (e, false)
    | _ => (e, false)
  | _ => (e, false)

/-- The whole `for` loop of `Recorder.RewriteBody`: every record processed by
`rwElem`, `hasUpdate` the disjunction of the per-record flags. -/
def rwList : List Json → List Json × Bool
  | [] => ([], false)
  | x :: t =>
    let (x', u₁) := rwElem x
    let (t', u₂) := rwList t
    (x' :: t', u₁ || u₂)

/-- Embedding of `Recorder.RewriteBody` (src/unnamed/part_000 lines 134-174).
Decode failure returns the original bytes unmodified.  The single-form type
assertions `jsonObj.(map[string]interface\x7b\x7d)` and
`records.([]interface\x7b\x7d)` panic when the decoded value is not an object
or the `records` value is not an array; the two-value assertions on the
records and on `settingId` do not.  When any record matched, the mutated
document is re-marshalled (which for a decoded value cannot fail in Go, so
the `err == nil` guard around `json.Marshal` is always taken). -/
def RewriteBody (body : String) : GoResult (String × Bool) :=
  match jsonUnmarshal body with
  | none => .ok (body, false)
  | some jsonObj =>
    match jsonObj with
    | .obj m =>
      match mLookup m "records" with
      | none => .ok (body, false)
      | some records =>
        match records with
        | .arr elems =>
          let (elems', hasUpdate) := rwList elems
          if hasUpdate then .ok (jsonMarshal (.obj (mInsert m "records" (.arr elems'))), true)
          else .ok (body, false)
        | _ => .panic "interface conversion: records value is not a JSON array"
    | _ => .panic "interface conversion: decoded body is not a JSON object"

/-- HTTP header: Go `http.Header` is a map from canonical field name to a
list of values; claims only use literal canonical keys, so keys are exact. -/
abbrev Header := List (String × List String)

/-- Go `http.Header.Get`: first value of the field, empty string if absent. -/
def hGet (h : Header) (key : String) : String :=
  match h.find? (fun e => e.1 == key) with
  | some (_, v :: _) => v
  | _ => ""

/-- Go `http.Header.Del`: remove the field. -/
def hDel (h : Header) (key : String) : Header :=
  h.filter (fun e => e.1 != key)

/-- The part of an `http.Request` the recorder reads or writes: `Host`,
`URL.Host`, `URL.Path`, headers and `RemoteAddr`. -/
structure Request where
  host : String
  urlHost : String
  urlPath : String
  header : Header
  remoteAddr : String
deriving Repr

/-- One-shot body reader (`io.ReadCloser` as used here): a buffer plus a
consumed flag.  `ioutil.ReadAll` yields the readable bytes and exhausts the
stream; a stream built by `ioutil.NopCloser(bytes.NewReader b)` is fresh. -/
structure BodyStream where
  data : String
  consumed : Bool
deriving Repr

/-- Bytes a reader of the stream obtains from now on (`ioutil.ReadAll`). -/
def readAllData (b : BodyStream) : String := if b.consumed then "" else b.data

/-- The part of an `http.Response` the recorder reads or writes. -/
structure Response where
  status : Nat
  header : Header
  contentLength : Int
  body : BodyStream
deriving Repr

/-- Embedding of `getContentType` (src/interceptor/example.go lines 98-106),
the helper the recorder package calls on `resp.Header`: the first
`;`-separated segment of the trimmed `Content-Type` value, trimmed, or
`application/octet-stream` when the header is absent or the segment empty. -/
def getContentType (h : Header) : String :=
  let ct := hGet h "Content-Type"
  match goSplitSemi (goTrimSpace ct.data) with
  | seg :: _ => if seg ≠ [] then String.mk (goTrimSpace seg) else "application/octet-stream"
  | [] => "application/octet-stream"

/-- Host prefix of the rewrite eligibility test (`RewriteResp` source constant). -/
def hostPre : String := "xmnup-rxe-1-api.lab.nordigy.ru"

/-- Path prefix of the rewrite eligibility test (`RewriteResp` source constant). -/
def pathPre : String := "/restapi/v1.0/rooms-client/account"

/-- Embedding of `Recorder.RewriteResp` (src/unnamed/part_000 lines 116-132).
When the request URL host and path carry the configured prefixes and the
content type has prefix `application/json`, the response body is read in full
(`ioutil.ReadAll`, which in this in-memory model never fails, matching the
`err == nil` guard) and passed to `RewriteBody`; only when a rewrite happened
are `ContentLength` and `Body` replaced — otherwise the response keeps its
now-exhausted body stream.  Ineligible responses are untouched. -/
def RewriteResp (req : Request) (resp : Response) : GoResult Response :=
  if strHasPre req.urlHost hostPre && strHasPre req.urlPath pathPre then
    let contentType := getContentType resp.header
    if strHasPre contentType "application/json" then
      let body := readAllData resp.body
      let resp₁ : Response := { resp with body := { data := resp.body.data, consumed := true } }
      match RewriteBody body with
      | .panic m => .panic m
      | .ok (rebody, update) =>
        if update then
          .ok { resp₁ with contentLength := Int.ofNat rebody.utf8ByteSize,
                           body := { data := rebody, consumed := false } }
        else .ok resp₁
    else .ok resp
  else .ok resp

/-- Snapshot of a request sufficient to rebuild it later.  Modelled from the
spec: the `Transaction` type and its `DumpRequest`/`Restore` code are not part
of the provided sources (only this recorder file uses them); §4.3 describes
`DumpRequest` as a reconstructible snapshot and `Restore` as its inverse,
failing with a reconstruction error when the stored dump is structurally
invalid (e.g. an unparsable URL), which the `structValid` flag models. -/
structure ReqDump where
  snapshot : Request
  structValid : Bool
deriving Repr

/-- Modelled from the spec: `Restore` rebuilds an outbound request from the
dump, or fails with a reconstruction error on a structurally invalid dump. -/
def ReqDump.Restore (d : ReqDump) : Except String Request :=
  if d.structValid then .ok d.snapshot else .error "invalid request dump"

/-- Modelled from the spec: `DumpResponse` captures either the response
(status and a buffered copy of the readable body) or the transport error,
mutually exclusively. -/
inductive RespDump where
  | resp (status : Nat) (body : String) : RespDump
  | terr (e : String) : RespDump
deriving Repr

/-- Modelled from the spec (§3): the durable record of one proxied exchange.
The concrete Go struct lives in a source file not provided; the recorder
reads and writes exactly these fields.  Times are abstract instants. -/
structure Transaction where
  ClientIP : String
  ServerIP : String
  StartTime : Nat
  Duration : Nat
  Req : ReqDump
  Resp : Option RespDump
deriving Repr

/-- Modelled from the spec: `NewTransaction` creates a fresh zero-valued
record (the request dump is not yet populated, hence not valid to restore). -/
def NewTransaction : Transaction :=
  { ClientIP := "", ServerIP := "", StartTime := 0, Duration := 0,
    Req := { snapshot := { host := "", urlHost := "", urlPath := "", header := [], remoteAddr := "" },
             structValid := false },
    Resp := none }

/-- Modelled from the spec (§4.3): `DumpRequest` snapshots the (already
mutated) live request into the transaction, buffering without consuming. -/
def dumpRequest (tx : Transaction) (req : Request) : Transaction :=
  { tx with Req := { snapshot := req, structValid := true } }

/-- Modelled from the spec (§4.3): `DumpResponse` records the response
(status and readable body) or, when a transport error occurred, the error. -/
def dumpResponse (tx : Transaction) (resp : Response) (terr : Option String) : Transaction :=
  match terr with
  | some e => { tx with Resp := some (.terr e) }
  | none => { tx with Resp := some (.resp resp.status (readAllData resp.body)) }

/-- Go `net.SplitHostPort` restricted to what `BeforeRequest` consumes: the
host part of `host:port`, empty when the input has no colon (the error case,
whose error the source discards leaving the zero string). -/
def goSplitHostPort (s : String) : String :=
  if s.data.contains ':' then
    String.mk ((s.data.reverse.dropWhile (fun c => c ≠ ':')).tail.reverse)
  else ""

/-- Value stored in the per-request `ctx.Data` bag: a `*Transaction` or any
other value (whose content never matters to the recorder). -/
inductive DataVal where
  | tx (t : Transaction) : DataVal
  | other : DataVal
deriving Repr

/-- First-match lookup in the `ctx.Data` map. -/
def dataLookup : List (String × DataVal) → String → Option DataVal
  | [], _ => none
  | (k, v) :: t, key => if k = key then some v else dataLookup t key

/-- Insert/replace in the `ctx.Data` map (`ctx.Data[key] = v`). -/
def dataInsert : List (String × DataVal) → String → DataVal → List (String × DataVal)
  | [], key, val => [(key, val)]
  | (k, v) :: t, key, val =>
    if k = key then (key, val) :: t else (k, v) :: dataInsert t key val

/-- The per-connection `goproxy.Context` as the recorder uses it: the
in-flight request and the per-request key-value bag. -/
structure Context where
  Req : Request
  Data : List (String × DataVal)
deriving Repr

/-- Header-convention phase of `Recorder.BeforeRequest` (src/unnamed/part_000
lines 92-96): a non-empty `X-Mars-Host` header value replaces `Req.Host`, and
the `X-Mars-Host` and `X-Mars-Debug` headers are deleted unconditionally. -/
def hostOverridePhase (req : Request) : Request :=
  let req₁ :=
    if hGet req.header "X-Mars-Host" ≠ "" then { req with host := hGet req.header "X-Mars-Host" }
    else req
  { req₁ with header := hDel (hDel req₁.header "X-Mars-Host") "X-Mars-Debug" }

/-- Embedding of `Recorder.BeforeRequest` (src/unnamed/part_000 lines 91-114):
host-override convention, then the optional interceptor (an arbitrary request
mutation), then transaction creation — client IP from the remote address,
start time stamped, the post-interceptor request dumped — and the transaction
stored under `"tx"` in the context bag.  The asynchronous `httptrace` server-IP
capture has no synchronous observable effect and is not modelled (spec §9
leaves it best-effort). -/
def BeforeRequest (intc : Option (Request → Request)) (now : Nat) (ctx : Context) : Context :=
  let req₁ := hostOverridePhase ctx.Req
  let req₂ := match intc with | some f => f req₁ | none => req₁
  let tx₀ := { NewTransaction with ClientIP := goSplitHostPort req₂.remoteAddr, StartTime := now }
  let tx := dumpRequest tx₀ req₂
  { Req := req₂, Data := dataInsert ctx.Data "tx" (.tx tx) }

/-- Embedding of `Recorder.BeforeResponse` (src/unnamed/part_000 lines
177-187): the optional interceptor sees the unmodified response first; then
`ctx.Data["tx"].(*Transaction)` — a single-form type assertion that panics
when the bag has no `"tx"` entry (a nil interface) or a non-Transaction one;
then duration, rewrite, and response dump. -/
def BeforeResponse (intc : Option (Response → Option String → Response)) (now : Nat)
    (ctx : Context) (resp : Response) (terr : Option String) : GoResult (Context × Response) :=
  let resp₁ := match intc with | some f => f resp terr | none => resp
  match dataLookup ctx.Data "tx" with
  | some (.tx tx) =>
    let tx₁ := { tx with Duration := now - tx.StartTime }
    match RewriteResp ctx.Req resp₁ with
    | .panic m => .panic m
    | .ok resp₂ =>
      let tx₂ := dumpResponse tx₁ resp₂ terr
      .ok ({ ctx with Data := dataInsert ctx.Data "tx" (.tx tx₂) }, resp₂)
  | _ => .panic "interface conversion: ctx.Data tx entry is not a *Transaction"

/-- The recorder's configured sinks: `storage` models `r.storage` (`nil` or a
`Put` whose result is `none` on success, `some err` on failure) and `output`
models `r.output` (`Write` likewise). -/
structure SinkEnv where
  storage : Option (Transaction → Option String)
  output : Option (Transaction → Option String)

/-- Observable outcome of one `Finish` call: which transaction each sink
received (if attempted) and the warning each failure produced.  `Finish`
returns no error and, in this path, cannot panic — warnings are logged only. -/
structure FinishTrace where
  putReceived : Option Transaction
  putWarning : Option String
  writeReceived : Option Transaction
  writeWarning : Option String
deriving Repr

/-- Embedding of `Recorder.Finish` (src/unnamed/part_000 lines 195-217): a
missing `"tx"` entry or a non-Transaction value is a silent no-op (two-value
lookups); otherwise `Storage.Put` is attempted when storage is configured and
`Output.Write` is attempted when output is configured, each failure only
logged (the warning text also names the request URL, which carries no further
information and is elided), neither failure affecting the other attempt. -/
def Finish (env : SinkEnv) (ctx : Context) : FinishTrace :=
  match dataLookup ctx.Data "tx" with
  | some (.tx t) =>
    let (pr, pw) :=
      match env.storage with
      | some put => (some t, put t)
      | none => (none, none)
    let (wr, ww) :=
      match env.output with
      | some write => (some t, write t)
      | none => (none, none)
    { putReceived := pr, putWarning := pw, writeReceived := wr, writeWarning := ww }
  | _ => { putReceived := none, putWarning := none, writeReceived := none, writeWarning := none }

/-- Observable outcome of one `Replay` call: the returned error (if any) and
the request handed to the asynchronous `go r.DoRequest(...)` dispatch (if
reached).  The dispatched exchange runs detached; nothing of it flows back
into the return value, which this trace makes structural. -/
structure ReplayTrace where
  result : Option String
  dispatched : Option Request
deriving Repr

/-- Embedding of `Recorder.Replay` (src/unnamed/part_000 lines 225-238):
`Storage.Get` failure and request-restore failure return descriptive errors
naming the transaction id without dispatching; otherwise the restored request
gets `RemoteAddr = tx.ClientIP + ":80"` and is dispatched asynchronously,
`Replay` itself returning `nil` immediately. -/
def Replay (get : String → Except String Transaction) (txId : String) : ReplayTrace :=
  match get txId with
  | .error e => { result := some ("回放#获取transaction错误: [txId: " ++ txId ++ "] " ++ e), dispatched := none }
  | .ok tx =>
    match tx.Req.Restore with
    | .error e => { result := some ("回放#创建请求错误: [txId: " ++ txId ++ "] " ++ e), dispatched := none }
    | .ok newReq => { result := none, dispatched := some { newReq with remoteAddr := tx.ClientIP ++ ":80" } }

/-- Observable outcome of one successful `DoRequest` call: the fresh context
handed to the proxy engine, whether a received response body was closed, and
the `Finish` outcome.  No response value is exposed to the caller. -/
structure DoReqTrace where
  engineCtx : Option Context
  bodyClosed : Bool
  finishTrace : FinishTrace
deriving Repr

/-- Embedding of `Recorder.DoRequest` (src/unnamed/part_000 lines 241-254):
a nil request is a fatal precondition violation (`panic("request is nil")`);
otherwise a fresh context carrying the request is handed to the external
proxy engine (modelled as a function that may mutate the context — the
engine's hook protocol re-enters the recorder — and may produce a response),
the response body, when present, is closed by the completion callback, and
`Finish` runs on the resulting context. -/
def DoRequest (env : SinkEnv) (engine : Context → Context × Option Response)
    (req : Option Request) : GoResult DoReqTrace :=
  match req with
  | none => .panic "request is nil"
  | some req =>
    let ctx₀ : Context := { Req := req, Data := [] }
    let (ctx₁, respOpt) := engine ctx₀
    .ok { engineCtx := some ctx₀, bodyClosed := respOpt.isSome, finishTrace := Finish env ctx₁ }

/-- The empty `Finish` outcome (nothing attempted, nothing logged). -/
def emptyFinishTrace : FinishTrace :=
  { putReceived := none, putWarning := none, writeReceived := none, writeWarning := none }

/-- Specification-side predicate (spec §4.2 step 2, sources of C1/C2): a
`records` element is matched when it is a JSON object with a string-valued
`settingId` whose value has the configured prefix. -/
def elemMatches (e : Json) : Bool :=
  match e with
  | .obj em =>
    match mLookup em "settingId" with
    | some (.str key) => strHasPre key settingPre
    | _ => false
  | _ => false

/-- Substring (contiguous infix) test on character lists. -/
def listHasInfix (s p : List Char) : Bool :=
  match s with
  | [] => listIsPre p []
  | c :: t => listIsPre p (c :: t) || listHasInfix t p

/-- Substring test on strings (byte substring of valid UTF-8 at character
boundaries coincides with character substring). -/
def strHasSubstr (s sub : String) : Bool := listHasInfix s.data sub.data

/-- Strict key-sortedness of object members in `keyLt` order. -/
def keysSorted : List (String × Json) → Bool
  | [] => true
  | [_] => true
  | (k₁, _) :: (k₂, v) :: t => keyLt k₁ k₂ && keysSorted ((k₂, v) :: t)

mutual

/-- Decoder invariant on JSON values: every object is strictly key-sorted
(as `mOfList` construction guarantees) and every number literal re-parses as
exactly itself.  `jsonUnmarshal` only produces such values, and the rewrite
preserves the invariant. -/
def jsonWF : Json → Bool
  | .null => true
  | .bool _ => true
  | .str _ => true
  | .num lit => decide (parseNum lit.data = some (lit.data, []))
  | .arr xs => itemsWF xs
  | .obj ms => keysSorted ms && membersWF ms

/-- Elementwise `jsonWF` over array elements. -/
def itemsWF : List Json → Bool
  | [] => true
  | x :: t => jsonWF x && itemsWF t

/-- Elementwise `jsonWF` over object member values. -/
def membersWF : List (String × Json) → Bool
  | [] => true
  | (_, v) :: t => jsonWF v && membersWF t

end

/-- Characters that may legally follow a complete number literal inside a
marshalled document (separator, closer, or end of input). -/
def numBoundary : List Char → Bool
  | [] => true
  | c :: _ => c = ',' || c = ']' || c = '}'

/-- An empty request, used by concrete witnesses. -/
def reqEmpty : Request :=
  { host := "", urlHost := "", urlPath := "", header := [], remoteAddr := "" }

/-- Example transaction used by concrete witnesses. -/
def txA : Transaction :=
  { NewTransaction with ClientIP := "10.0.0.7", StartTime := 5 }

/-- Sink environment of spec Scenario C: storage fails, output succeeds. -/
def envScenC : SinkEnv :=
  { storage := some (fun _ => some "disk full"), output := some (fun _ => none) }

/-- Context carrying a transaction under `"tx"`. -/
def ctxWithTx : Context := { Req := reqEmpty, Data := [("tx", DataVal.tx txA)] }

/-- Context with an empty data bag (never reached `BeforeRequest`). -/
def ctxNoTx : Context := { Req := reqEmpty, Data := [] }

/-- Request satisfying the rewrite eligibility host and path prefixes. -/
def reqElig : Request :=
  { host := "xmnup-rxe-1-api.lab.nordigy.ru",
    urlHost := "xmnup-rxe-1-api.lab.nordigy.ru",
    urlPath := "/restapi/v1.0/rooms-client/account/406822004",
    header := [], remoteAddr := "192.168.0.9:51000" }

/-- Response with a JSON content type and the given fresh body. -/
def respJson (b : String) : Response :=
  { status := 200,
    header := [("Content-Type", ["application/json; charset=utf-8"])],
    contentLength := Int.ofNat b.utf8ByteSize,
    body := { data := b, consumed := false } }

/-- Body of spec Scenario A: one matching record. -/
def bodyMatch : String :=
  "\x7b\"records\":[\x7b\"settingId\":\"DigitalSignage.PlayEnabled.x\",\"value\":\"false\"\x7d]\x7d"

/-- Body of spec Scenario B: one non-matching record. -/
def bodyNoMatch : String :=
  "\x7b\"records\":[\x7b\"settingId\":\"Other.Setting\",\"value\":\"false\"\x7d]\x7d"

/-- Body with one matching record followed by one non-matching record whose
textual representation carries an interior space. -/
def bodyMixed : String :=
  "\x7b\"records\":[\x7b\"settingId\":\"DigitalSignage.PlayEnabled.x\",\"value\":\"false\"\x7d,\x7b\"settingId\":\"Other.Setting\", \"value\":\"false\"\x7d]\x7d"

/-- The non-matching element of `bodyMixed` exactly as it appears in the
input bytes (with its interior space). -/
def elemOtherSpaced : String :=
  "\x7b\"settingId\":\"Other.Setting\", \"value\":\"false\"\x7d"

/-- Context of spec Scenario E: inbound request with the override and debug
headers set. -/
def ctxOverride : Context :=
  { Req := { host := "public.example", urlHost := "public.example", urlPath := "/x",
             header := [("X-Mars-Host", ["internal.example"]), ("X-Mars-Debug", ["1"])],
             remoteAddr := "10.1.1.1:4242" },
    Data := [] }

/-- Bytes `RewriteBody` produces for `bodyMatch`. -/
def bodyMatchOut : String :=
  "\x7b\"records\":[\x7b\"settingId\":\"DigitalSignage.PlayEnabled.x\",\"value\":\"true\"\x7d]\x7d"

/-- Bytes `RewriteBody` produces for `bodyMixed`: the matched element's
`value` is now `"true"`, and the unmatched element has been re-serialized
compactly — its interior space is gone. -/
def bodyMixedOut : String :=
  "\x7b\"records\":[\x7b\"settingId\":\"DigitalSignage.PlayEnabled.x\",\"value\":\"true\"\x7d,\x7b\"settingId\":\"Other.Setting\",\"value\":\"false\"\x7d]\x7d"

/-- Whether `x` is strictly below the first key of `l` (vacuously true for
an empty list); the head form of the sortedness invariant. -/
def headKeyLt (x : String) : List (String × Json) → Bool
  | [] => true
  | (k, _) :: _ => keyLt x k

/-! Theorems.  Each claim of the specification audit gets exactly one main
theorem (plus, where applicable, a concrete witness or counterexample). -/

/-- Claim C4: on a context carrying a Transaction, `Finish` attempts
`Storage.Put` exactly when storage is configured and `Output.Write` exactly
when output is configured — each sink's outcome depends only on its own
collaborator, so a failure of one never prevents the other from being
attempted — failures are merely logged as warnings and `Finish` (whose
result type carries no error) propagates nothing; on a context carrying no
Transaction under `"tx"` (or a non-Transaction value), `Finish` is a no-op. -/
theorem finish_sinks_independent_and_skip (env : SinkEnv) (ctx : Context) :
    (∀ t : Transaction, dataLookup ctx.Data "tx" = some (DataVal.tx t) →
      (Finish env ctx).putReceived = (match env.storage with | some _ => some t | none => none) ∧
      (Finish env ctx).putWarning = (match env.storage with | some put => put t | none => none) ∧
      (Finish env ctx).writeReceived = (match env.output with | some _ => some t | none => none) ∧
      (Finish env ctx).writeWarning = (match env.output with | some write => write t | none => none)) ∧
    ((∀ t : Transaction, dataLookup ctx.Data "tx" ≠ some (DataVal.tx t)) →
      Finish env ctx = emptyFinishTrace) := by
  constructor
  · intro t ht
    unfold Finish
    rw [ht]
    cases env.storage <;> cases env.output <;> simp
  · intro hno
    unfold Finish emptyFinishTrace
    cases hl : dataLookup ctx.Data "tx" with
    | none => simp
    | some v =>
      cases v with
      | tx t => exact absurd hl (hno t)
      | other => simp

/-- Witness for C4 (spec Scenario C): with storage failing (`Put` returns an
error) and output succeeding, `Output.Write` still receives the Transaction,
the storage failure is logged as a warning, and nothing propagates; and on a
bag without a Transaction, `Finish` is a no-op. -/
theorem finish_sinks_independent_and_skip_witness :
    (Finish envScenC ctxWithTx).writeReceived = some txA ∧
    (Finish envScenC ctxWithTx).putWarning = some "disk full" ∧
    Finish envScenC ctxNoTx = emptyFinishTrace := by
  refine ⟨?_, ?_, ?_⟩
  · exact ((finish_sinks_independent_and_skip envScenC ctxWithTx).1 txA rfl).2.2.1
  · exact ((finish_sinks_independent_and_skip envScenC ctxWithTx).1 txA rfl).2.1
  · exact (finish_sinks_independent_and_skip envScenC ctxNoTx).2
      (fun t h => by simp [ctxNoTx, dataLookup] at h)

/-- Claim C5: `Replay` returns a descriptive error (naming the transaction
id) and dispatches nothing when `Storage.Get` fails or when restoring the
request from the stored dump fails; when both succeed it returns success
(`nil`, modelled `none`) as soon as the dispatch is initiated — its return
value is fixed at dispatch time and carries nothing of the replayed
exchange's outcome. -/
theorem replay_errors_and_dispatch (get : String → Except String Transaction) (txId : String) :
    (∀ e, get txId = .error e →
      Replay get txId = { result := some ("回放#获取transaction错误: [txId: " ++ txId ++ "] " ++ e),
                          dispatched := none }) ∧
    (∀ tx e, get txId = .ok tx → tx.Req.Restore = .error e →
      Replay get txId = { result := some ("回放#创建请求错误: [txId: " ++ txId ++ "] " ++ e),
                          dispatched := none }) ∧
    (∀ tx r, get txId = .ok tx → tx.Req.Restore = .ok r →
      Replay get txId = { result := none,
                          dispatched := some { r with remoteAddr := tx.ClientIP ++ ":80" } }) := by
  refine ⟨?_, ?_, ?_⟩
  · intro e hg
    unfold Replay
    rw [hg]
  · intro tx e hg hr
    unfold Replay
    rw [hg]
    simp only [hr]
  · intro tx r hg hr
    unfold Replay
    rw [hg]
    simp only [hr]

/-- Witness for C5 (spec Scenario D): a storage reporting not-found makes
`Replay` return a descriptive error naming the id, with no dispatch; a
storage holding a restorable transaction makes `Replay` succeed and dispatch
the restored request re-attributed to the original client IP. -/
theorem replay_errors_and_dispatch_witness :
    Replay (fun _ => .error "not found") "unknown-id"
      = { result := some "回放#获取transaction错误: [txId: unknown-id] not found", dispatched := none } ∧
    Replay (fun _ => .ok (dumpRequest txA reqElig)) "id7"
      = { result := none,
          dispatched := some { reqElig with remoteAddr := "10.0.0.7:80" } } := by
  constructor
  · exact (replay_errors_and_dispatch (fun _ => Except.error "not found") "unknown-id").1
      "not found" rfl
  · exact (replay_errors_and_dispatch (fun _ => Except.ok (dumpRequest txA reqElig)) "id7").2.2
      (dumpRequest txA reqElig) reqElig rfl rfl

/-- Claim C8: `BeforeResponse` on a context whose data bag holds no
Transaction under `"tx"` faults on the unchecked type assertion
`ctx.Data["tx"].(*Transaction)` — the defensive missing-transaction no-op
that `Finish` performs is absent here. -/
theorem beforeResponse_missing_tx_panics (intc : Option (Response → Option String → Response))
    (now : Nat) (ctx : Context) (resp : Response) (terr : Option String)
    (h : ∀ t : Transaction, dataLookup ctx.Data "tx" ≠ some (DataVal.tx t)) :
    (BeforeResponse intc now ctx resp terr).isPanic = true := by
  unfold BeforeResponse
  cases hl : dataLookup ctx.Data "tx" with
  | none => simp [GoResult.isPanic]
  | some v =>
    cases v with
    | tx t => exact absurd hl (h t)
    | other => simp [GoResult.isPanic]

/-- Witness for C8: a context that never passed `BeforeRequest` (empty data
bag) makes `BeforeResponse` panic. -/
theorem beforeResponse_missing_tx_panics_witness :
    (BeforeResponse none 3 ctxNoTx (respJson bodyNoMatch) none).isPanic = true :=
  beforeResponse_missing_tx_panics none 3 ctxNoTx (respJson bodyNoMatch) none
    (fun t h => by simp [ctxNoTx, dataLookup] at h)

/-- Claim C10: `DoRequest` panics exactly on a nil request; on a non-nil
request it hands a fresh context carrying the request to the proxy engine,
closes (discards) the response body whenever a response was produced — no
response value reaches the caller, as the trace type shows — and then runs
`Finish` on the exchange's context. -/
theorem doRequest_nil_panics_else_runs (env : SinkEnv)
    (engine : Context → Context × Option Response) :
    (DoRequest env engine none).isPanic = true ∧
    (∀ r : Request,
      DoRequest env engine (some r)
        = .ok { engineCtx := some { Req := r, Data := [] },
                bodyClosed := (engine { Req := r, Data := [] }).2.isSome,
                finishTrace := Finish env (engine { Req := r, Data := [] }).1 } ∧
      (DoRequest env engine (some r)).isPanic = false) := by
  constructor
  · rfl
  · intro r
    constructor
    · rfl
    · rfl

/-- A `find?` miss survives any further filtering. -/
theorem find_none_of_filter (l : Header) (p q : String × List String → Bool)
    (h : l.find? p = none) : (l.filter q).find? p = none := by
  induction l with
  | nil => rfl
  | cons e t ih =>
    rw [List.find?_cons] at h
    cases hp : p e with
    | true => rw [hp] at h; exact absurd h (by simp)
    | false =>
      rw [hp] at h
      rw [List.filter_cons]
      split
      · rw [List.find?_cons, hp]; exact ih h
      · exact ih h

/-- Deleting a header field makes lookups of that field miss. -/
theorem hDel_find_none (h : Header) (key : String) :
    (hDel h key).find? (fun e => e.1 == key) = none := by
  induction h with
  | nil => rfl
  | cons e t ih =>
    show (List.filter (fun e => e.1 != key) (e :: t)).find? (fun e => e.1 == key) = none
    rw [List.filter_cons]
    split
    · rename_i hcond
      have hk : (e.1 == key) = false := beq_eq_false_iff_ne.mpr (bne_iff_ne.mp hcond)
      rw [List.find?_cons, hk]
      exact ih
    · exact ih

/-- Deleting a header field makes `Get` of that field return the empty string. -/
theorem hGet_hDel (h : Header) (key : String) : hGet (hDel h key) key = "" := by
  unfold hGet
  rw [hDel_find_none]

/-- Inserting into the context bag makes the key look up the new value. -/
theorem dataInsert_lookup (l : List (String × DataVal)) (key : String) (v : DataVal) :
    dataLookup (dataInsert l key v) key = some v := by
  induction l with
  | nil => simp [dataInsert, dataLookup]
  | cons e t ih =>
    rw [dataInsert]
    split
    · rw [dataLookup, if_pos rfl]
    · rename_i hne
      rw [dataLookup]
      rw [if_neg hne]
      exact ih

/-- Claim C6: `BeforeRequest` replaces the request's effective host with a
present (non-empty) `X-Mars-Host` header value, deletes both the
`X-Mars-Host` and `X-Mars-Debug` headers whether or not the override fired,
and only then runs the interceptor and dumps the request — so the request the
interceptor receives has both headers absent, and the dumped/forwarded
request is the interceptor's image of that stripped request. -/
theorem beforeRequest_override_and_strip (now : Nat) (ctx : Context) :
    ((hostOverridePhase ctx.Req).header.find? (fun e => e.1 == "X-Mars-Host") = none) ∧
    ((hostOverridePhase ctx.Req).header.find? (fun e => e.1 == "X-Mars-Debug") = none) ∧
    (hGet (hostOverridePhase ctx.Req).header "X-Mars-Host" = "" ∧
     hGet (hostOverridePhase ctx.Req).header "X-Mars-Debug" = "") ∧
    (hGet ctx.Req.header "X-Mars-Host" ≠ "" →
      (hostOverridePhase ctx.Req).host = hGet ctx.Req.header "X-Mars-Host") ∧
    (hGet ctx.Req.header "X-Mars-Host" = "" →
      (hostOverridePhase ctx.Req).host = ctx.Req.host) ∧
    (∀ f : Request → Request,
      (BeforeRequest (some f) now ctx).Req = f (hostOverridePhase ctx.Req) ∧
      ∃ tx : Transaction,
        dataLookup (BeforeRequest (some f) now ctx).Data "tx" = some (DataVal.tx tx) ∧
        tx.Req.snapshot = f (hostOverridePhase ctx.Req)) ∧
    (BeforeRequest none now ctx).Req = hostOverridePhase ctx.Req := by
  have hdr : (hostOverridePhase ctx.Req).header
      = hDel (hDel ctx.Req.header "X-Mars-Host") "X-Mars-Debug" := by
    unfold hostOverridePhase
    split <;> rfl
  have hfindHost : (hostOverridePhase ctx.Req).header.find? (fun e => e.1 == "X-Mars-Host") = none := by
    rw [hdr]
    exact find_none_of_filter _ _ _ (hDel_find_none _ _)
  have hfindDebug : (hostOverridePhase ctx.Req).header.find? (fun e => e.1 == "X-Mars-Debug") = none := by
    rw [hdr]
    exact hDel_find_none _ _
  refine ⟨hfindHost, hfindDebug, ⟨?_, ?_⟩, ?_, ?_, ?_, ?_⟩
  · rw [hGet, hfindHost]
  · rw [hGet, hfindDebug]
  · intro hne
    unfold hostOverridePhase
    rw [if_pos hne]
  · intro heq
    unfold hostOverridePhase
    rw [if_neg (by rw [heq]; exact fun h => h rfl)]
  · intro f
    constructor
    · rfl
    · exact ⟨_, dataInsert_lookup ctx.Data "tx" _, rfl⟩
  · rfl

/-- Witness for C6 (spec Scenario E): a request carrying
`X-Mars-Host: internal.example` forwards with host `internal.example` and
both mars headers absent from the request the interceptor sees. -/
theorem beforeRequest_override_and_strip_witness :
    (hostOverridePhase ctxOverride.Req).host = "internal.example" ∧
    hGet (hostOverridePhase ctxOverride.Req).header "X-Mars-Host" = "" ∧
    hGet (hostOverridePhase ctxOverride.Req).header "X-Mars-Debug" = "" ∧
    (BeforeRequest (some id) 0 ctxOverride).Req = hostOverridePhase ctxOverride.Req := by
  refine ⟨?_, ?_, ?_, ?_⟩
  · have h := (beforeRequest_override_and_strip 0 ctxOverride).2.2.2.1 (by decide)
    rw [h]
    rfl
  · exact (beforeRequest_override_and_strip 0 ctxOverride).2.2.1.1
  · exact (beforeRequest_override_and_strip 0 ctxOverride).2.2.1.2
  · exact ((beforeRequest_override_and_strip 0 ctxOverride).2.2.2.2.2.1 id).1

/-- Claim C7: a response failing the eligibility predicate — host without the
configured prefix, or path without the configured prefix, or a content type
(first `;`-segment of the trimmed `Content-Type`, trimmed, defaulting to
`application/octet-stream`) without prefix `application/json` — is returned
by `RewriteResp` entirely unmodified, with no rewrite reported or attempted. -/
theorem rewriteResp_ineligible_unchanged (req : Request) (resp : Response)
    (h : (strHasPre req.urlHost hostPre && strHasPre req.urlPath pathPre &&
          strHasPre (getContentType resp.header) "application/json") = false) :
    RewriteResp req resp = .ok resp := by
  cases hhp : strHasPre req.urlHost hostPre && strHasPre req.urlPath pathPre with
  | false => simp [RewriteResp, hhp]
  | true =>
    have hct : strHasPre (getContentType resp.header) "application/json" = false := by
      rw [hhp] at h
      simpa using h
    simp [RewriteResp, hhp, hct]

/-- Witness for C7: a wrong-host request and, separately, an HTML content
type each leave the response untouched. -/
theorem rewriteResp_ineligible_unchanged_witness :
    RewriteResp { reqElig with urlHost := "other.example" } (respJson bodyMatch)
      = .ok (respJson bodyMatch) ∧
    RewriteResp reqElig
      { respJson bodyMatch with header := [("Content-Type", ["text/html"])] }
      = .ok { respJson bodyMatch with header := [("Content-Type", ["text/html"])] } := by
  constructor
  · exact rewriteResp_ineligible_unchanged _ _ (by decide)
  · exact rewriteResp_ineligible_unchanged _ _ (by decide)

/-- Claim C3 (code bug): on an eligible JSON response whose body produces no
rewrite (`modified=false`), `RewriteResp` has already consumed the response
body via `ioutil.ReadAll` and does not restore it, so the downstream-readable
body is empty rather than the original bytes (spec Scenario B promises the
output unchanged); `ContentLength` does keep its prior value, and when
`modified=true` the body and length are properly replaced. -/
theorem rewriteResp_unmodified_body_drained :
    RewriteResp reqElig (respJson bodyNoMatch)
      = .ok { respJson bodyNoMatch with body := { data := bodyNoMatch, consumed := true } } ∧
    readAllData (BodyStream.mk bodyNoMatch true) = "" ∧
    readAllData (respJson bodyNoMatch).body = bodyNoMatch ∧
    bodyNoMatch ≠ "" ∧
    RewriteResp reqElig (respJson bodyMatch)
      = .ok { respJson bodyMatch with
              contentLength := Int.ofNat bodyMatchOut.utf8ByteSize,
              body := { data := bodyMatchOut, consumed := false } } := by
  refine ⟨?_, rfl, rfl, by decide, ?_⟩
  · rfl
  · rfl

/-- The match flag `rwElem` computes is exactly the specification's
match predicate. -/
theorem rwElem_flag (e : Json) : (rwElem e).2 = elemMatches e := by
  cases e with
  | obj em =>
    rcases hv : mLookup em "settingId" with _ | v
    · simp [rwElem, elemMatches, hv]
    · cases v with
      | str key => cases hsp : strHasPre key settingPre <;> simp [rwElem, elemMatches, hv, hsp]
      | null => simp [rwElem, elemMatches, hv]
      | bool b => simp [rwElem, elemMatches, hv]
      | num lit => simp [rwElem, elemMatches, hv]
      | arr xs => simp [rwElem, elemMatches, hv]
      | obj ms => simp [rwElem, elemMatches, hv]
  | null => rfl
  | bool b => rfl
  | num lit => rfl
  | str s => rfl
  | arr xs => rfl

/-- An unmatched record is left untouched by the loop body. -/
theorem rwElem_unmatched (e : Json) (h : elemMatches e = false) : rwElem e = (e, false) := by
  cases e with
  | obj em =>
    rcases hv : mLookup em "settingId" with _ | v
    · simp [rwElem, hv]
    · cases v with
      | str key =>
        have hsp : strHasPre key settingPre = false := by simpa [elemMatches, hv] using h
        simp [rwElem, hv, hsp]
      | null => simp [rwElem, hv]
      | bool b => simp [rwElem, hv]
      | num lit => simp [rwElem, hv]
      | arr xs => simp [rwElem, hv]
      | obj ms => simp [rwElem, hv]
  | null => rfl
  | bool b => rfl
  | num lit => rfl
  | str s => rfl
  | arr xs => rfl

/-- A matched record is a JSON object and gets its `value` key overwritten
with the string `"true"`. -/
theorem rwElem_matched (e : Json) (h : elemMatches e = true) :
    ∃ em, e = .obj em ∧ rwElem e = (.obj (mInsert em "value" (.str "true")), true) := by
  cases e with
  | obj em =>
    rcases hv : mLookup em "settingId" with _ | v
    · exact absurd h (by simp [elemMatches, hv])
    · cases v with
      | str key =>
        have hsp : strHasPre key settingPre = true := by simpa [elemMatches, hv] using h
        exact ⟨em, rfl, by simp [rwElem, hv, hsp]⟩
      | null => exact absurd h (by simp [elemMatches, hv])
      | bool b => exact absurd h (by simp [elemMatches, hv])
      | num lit => exact absurd h (by simp [elemMatches, hv])
      | arr xs => exact absurd h (by simp [elemMatches, hv])
      | obj ms => exact absurd h (by simp [elemMatches, hv])
  | null => exact absurd h (by simp [elemMatches])
  | bool b => exact absurd h (by simp [elemMatches])
  | num lit => exact absurd h (by simp [elemMatches])
  | str s => exact absurd h (by simp [elemMatches])
  | arr xs => exact absurd h (by simp [elemMatches])

/-- The rewrite loop maps `rwElem` over the records and reports whether any
record matched. -/
theorem rwList_eq (xs : List Json) :
    rwList xs = (xs.map (fun e => (rwElem e).1), xs.any elemMatches) := by
  induction xs with
  | nil => rfl
  | cons x t ih =>
    rcases hx : rwElem x with ⟨x', u₁⟩
    have hflag : elemMatches x = u₁ := by rw [← rwElem_flag, hx]
    simp [rwList, hx, ih, List.map_cons, List.any_cons, hflag]

/-- Go map assignment makes the key read back the assigned value. -/
theorem mInsert_lookup (l : List (String × Json)) (key : String) (val : Json) :
    mLookup (mInsert l key val) key = some val := by
  induction l with
  | nil => simp [mInsert, mLookup]
  | cons e t ih =>
    obtain ⟨k', v'⟩ := e
    rw [mInsert]
    split
    · simp [mLookup]
    · split
      · simp [mLookup]
      · rename_i h₁ h₂
        rw [mLookup]
        rw [if_neg (fun hh => h₂ hh.symm)]
        exact ih

/-- Claim C2 (amended): `RewriteBody` is a pass-through (original bytes,
`modified=false`) for unparsable bodies, for objects without a `records`
key, and for `records` arrays in which no element matches (non-object
elements and elements with a missing or non-string `settingId` never match);
but a body whose top-level JSON value is not an object, or whose `records`
value is not an array, makes it fault on a failed single-form type
assertion instead of passing the body through. -/
theorem rewriteBody_shape_behavior :
    (∀ s, jsonUnmarshal s = none → RewriteBody s = .ok (s, false)) ∧
    (∀ s m, jsonUnmarshal s = some (.obj m) → mLookup m "records" = none →
      RewriteBody s = .ok (s, false)) ∧
    (∀ s m xs, jsonUnmarshal s = some (.obj m) → mLookup m "records" = some (.arr xs) →
      (∀ e ∈ xs, elemMatches e = false) → RewriteBody s = .ok (s, false)) ∧
    (∀ s v, jsonUnmarshal s = some v → (∀ ms, v ≠ .obj ms) → (RewriteBody s).isPanic = true) ∧
    (∀ s m r, jsonUnmarshal s = some (.obj m) → mLookup m "records" = some r →
      (∀ xs, r ≠ .arr xs) → (RewriteBody s).isPanic = true) := by
  refine ⟨?_, ?_, ?_, ?_, ?_⟩
  · intro s hu
    simp [RewriteBody, hu]
  · intro s m hu hr
    simp [RewriteBody, hu, hr]
  · intro s m xs hu hr hall
    have hany : xs.any elemMatches = false := by
      rw [List.any_eq_false]
      intro x hx
      rw [hall x hx]
      exact Bool.false_ne_true
    simp [RewriteBody, hu, hr, rwList_eq, hany]
  · intro s v hu hnm
    cases v with
    | obj ms => exact absurd rfl (hnm ms)
    | null => simp [RewriteBody, hu, GoResult.isPanic]
    | bool b => simp [RewriteBody, hu, GoResult.isPanic]
    | num lit => simp [RewriteBody, hu, GoResult.isPanic]
    | str str => simp [RewriteBody, hu, GoResult.isPanic]
    | arr xs => simp [RewriteBody, hu, GoResult.isPanic]
  · intro s m r hu hr hna
    cases r with
    | arr xs => exact absurd rfl (hna xs)
    | null => simp [RewriteBody, hu, hr, GoResult.isPanic]
    | bool b => simp [RewriteBody, hu, hr, GoResult.isPanic]
    | num lit => simp [RewriteBody, hu, hr, GoResult.isPanic]
    | str str => simp [RewriteBody, hu, hr, GoResult.isPanic]
    | obj ms => simp [RewriteBody, hu, hr, GoResult.isPanic]

/-- Counterexample for C2: the valid JSON bodies `[1]` (top-level array) and
`\x7b"records":0\x7d` (non-array `records`) make `RewriteBody` fault on a failed
type assertion — the claim's "never raises a fault, total over all byte
inputs" is false. -/
theorem rewriteBody_shape_panics_counterexample :
    jsonUnmarshal "[1]" = some (Json.arr [Json.num "1"]) ∧
    (RewriteBody "[1]").isPanic = true ∧
    jsonUnmarshal "\x7b\"records\":0\x7d" = some (Json.obj [("records", Json.num "0")]) ∧
    (RewriteBody "\x7b\"records\":0\x7d").isPanic = true :=
  ⟨rfl, rfl, rfl, rfl⟩

/-- Witness for C2 (amended): concrete instances of every branch — an
unparsable body, a missing `records` key, a records array with no matching
element, and the two faulting shapes. -/
theorem rewriteBody_shape_behavior_witness :
    RewriteBody "not json" = .ok ("not json", false) ∧
    RewriteBody "\x7b\"a\":1\x7d" = .ok ("\x7b\"a\":1\x7d", false) ∧
    RewriteBody bodyNoMatch = .ok (bodyNoMatch, false) ∧
    (RewriteBody "[1]").isPanic = true ∧
    (RewriteBody "\x7b\"records\":0\x7d").isPanic = true := by
  refine ⟨?_, ?_, ?_, ?_, ?_⟩
  · exact rewriteBody_shape_behavior.1 "not json" rfl
  · exact rewriteBody_shape_behavior.2.1 "\x7b\"a\":1\x7d" [("a", Json.num "1")] rfl rfl
  · exact rewriteBody_shape_behavior.2.2.1 bodyNoMatch
      [("records", Json.arr [Json.obj [("settingId", Json.str "Other.Setting"), ("value", Json.str "false")]])]
      [Json.obj [("settingId", Json.str "Other.Setting"), ("value", Json.str "false")]]
      rfl rfl (by decide)
  · exact rewriteBody_shape_behavior.2.2.2.1 "[1]" (Json.arr [Json.num "1"]) rfl
      (fun ms h => Json.noConfusion h)
  · exact rewriteBody_shape_behavior.2.2.2.2 "\x7b\"records\":0\x7d" [("records", Json.num "0")]
      (Json.num "0") rfl rfl (fun xs h => Json.noConfusion h)

/-- Claim C1 (amended): on a body decoding to an object with a `records`
array, `RewriteBody` overwrites `value` with the string `"true"` in exactly
the matched elements (objects with a string `settingId` carrying the
configured prefix), reports `modified=true` exactly when at least one element
matched (returning the re-marshalled document), leaves non-matching elements
untouched as JSON values — though the re-serialization of the whole document
need not reproduce their original byte representation — and returns the
original bytes with `modified=false` when nothing matched. -/
theorem rewriteBody_records_rewrite (s : String) (m : List (String × Json)) (xs : List Json)
    (hu : jsonUnmarshal s = some (.obj m)) (hr : mLookup m "records" = some (.arr xs)) :
    (RewriteBody s =
      if xs.any elemMatches then
        .ok (jsonMarshal (.obj (mInsert m "records" (.arr (xs.map (fun e => (rwElem e).1))))), true)
      else .ok (s, false)) ∧
    (∀ e ∈ xs, elemMatches e = false → (rwElem e).1 = e) ∧
    (∀ e ∈ xs, elemMatches e = true →
      ∃ em, e = .obj em ∧ (rwElem e).1 = .obj (mInsert em "value" (.str "true")) ∧
        mLookup (mInsert em "value" (.str "true")) "value" = some (.str "true")) := by
  refine ⟨?_, ?_, ?_⟩
  · cases hany : xs.any elemMatches with
    | true => simp [RewriteBody, hu, hr, rwList_eq, hany]
    | false => simp [RewriteBody, hu, hr, rwList_eq, hany]
  · intro e _ hm
    rw [rwElem_unmatched e hm]
  · intro e _ hm
    obtain ⟨em, he, hrw⟩ := rwElem_matched e hm
    exact ⟨em, he, by rw [hrw], mInsert_lookup em "value" (.str "true")⟩

/-- Counterexample for C1: in `bodyMixed` the non-matching element appears in
the input with an interior space; after a rewrite the whole document is
re-marshalled compactly, so the output no longer contains the element's input
byte representation — "byte-identical to its input representation" fails. -/
theorem rewriteBody_not_byte_identical_counterexample :
    RewriteBody bodyMixed = .ok (bodyMixedOut, true) ∧
    strHasSubstr bodyMixed elemOtherSpaced = true ∧
    strHasSubstr bodyMixedOut elemOtherSpaced = false :=
  ⟨rfl, rfl, rfl⟩

/-- Witness for C1 (spec Scenario A): the matched record's `value` becomes
`"true"` and the body reports modified. -/
theorem rewriteBody_records_rewrite_witness :
    RewriteBody bodyMatch = .ok (bodyMatchOut, true) := by
  have h := (rewriteBody_records_rewrite bodyMatch
      [("records", Json.arr [Json.obj [("settingId", Json.str "DigitalSignage.PlayEnabled.x"), ("value", Json.str "false")]])]
      [Json.obj [("settingId", Json.str "DigitalSignage.PlayEnabled.x"), ("value", Json.str "false")]]
      rfl rfl).1
  rw [h]
  rfl

/-- Lexicographic character-list order is irreflexive. -/
theorem strLtCh_irrefl (a : List Char) : strLtCh a a = false := by
  induction a with
  | nil => rfl
  | cons x xs ih => simp [strLtCh, ih]

/-- Lexicographic character-list order is transitive. -/
theorem strLtCh_trans (a b c : List Char) (h₁ : strLtCh a b = true) (h₂ : strLtCh b c = true) :
    strLtCh a c = true := by
  induction a generalizing b c with
  | nil =>
    cases c with
    | cons z zs => rfl
    | nil =>
      cases b with
      | nil => exact absurd h₁ (by simp [strLtCh])
      | cons y ys => exact absurd h₂ (by simp [strLtCh])
  | cons x xs ih =>
    cases b with
    | nil => exact absurd h₁ (by simp [strLtCh])
    | cons y ys =>
      cases c with
      | nil => exact absurd h₂ (by simp [strLtCh])
      | cons z zs =>
        rw [strLtCh] at h₁ h₂ ⊢
        by_cases hxy : x = y
        · subst hxy
          rw [if_pos rfl] at h₁
          by_cases hyz : x = z
          · subst hyz
            rw [if_pos rfl] at h₂
            rw [if_pos rfl]
            exact ih ys zs h₁ h₂
          · rw [if_neg hyz] at h₂
            rw [if_neg hyz]
            exact h₂
        · rw [if_neg hxy] at h₁
          by_cases hyz : y = z
          · subst hyz
            rw [if_neg hxy]
            exact h₁
          · rw [if_neg hyz] at h₂
            have hxz : x < z := lt_trans (of_decide_eq_true h₁) (of_decide_eq_true h₂)
            rw [if_neg (fun he => by subst he; exact absurd hxz (lt_irrefl x))]
            exact decide_eq_true hxz

/-- Lexicographic character-list order is total: incomparable lists are equal. -/
theorem strLtCh_total (a b : List Char) (h₁ : strLtCh a b = false) (h₂ : strLtCh b a = false) :
    a = b := by
  induction a generalizing b with
  | nil =>
    cases b with
    | nil => rfl
    | cons y ys => exact absurd h₁ (by simp [strLtCh])
  | cons x xs ih =>
    cases b with
    | nil => exact absurd h₂ (by simp [strLtCh])
    | cons y ys =>
      rw [strLtCh] at h₁ h₂
      by_cases hxy : x = y
      · subst hxy
        rw [if_pos rfl] at h₁ h₂
        rw [ih ys h₁ h₂]
      · rw [if_neg hxy] at h₁
        rw [if_neg (fun he => hxy he.symm)] at h₂
        have hnx : ¬x < y := of_decide_eq_false h₁
        have hny : ¬y < x := of_decide_eq_false h₂
        exact absurd (lt_or_gt_of_ne (fun he : x = y => hxy he)).elim (by
          intro hcon
          exact hcon (fun hh => hnx hh) (fun hh => hny hh))

/-- Key order is irreflexive. -/
theorem keyLt_irrefl (a : String) : keyLt a a = false := strLtCh_irrefl a.data

/-- Key order is transitive. -/
theorem keyLt_trans (a b c : String) (h₁ : keyLt a b = true) (h₂ : keyLt b c = true) :
    keyLt a c = true := strLtCh_trans a.data b.data c.data h₁ h₂

/-- Key order is total. -/
theorem keyLt_total (a b : String) (h₁ : keyLt a b = false) (h₂ : keyLt b a = false) : a = b := by
  have := strLtCh_total a.data b.data h₁ h₂
  cases a with
  | mk da =>
    cases b with
    | mk db => exact congrArg String.mk this

/-- Sortedness of a cons in head form. -/
theorem keysSorted_cons (e : String × Json) (t : List (String × Json)) :
    keysSorted (e :: t) = (headKeyLt e.1 t && keysSorted t) := by
  obtain ⟨k, v⟩ := e
  cases t with
  | nil => rfl
  | cons e' t' => obtain ⟨k', v'⟩ := e'; rfl

/-- Go map assignment preserves strict key-sortedness, and keeps the head
above any strict lower bound of both the key and the old list. -/
theorem mInsert_keysSorted (l : List (String × Json)) (key : String) (val : Json)
    (h : keysSorted l = true) :
    keysSorted (mInsert l key val) = true ∧
    (∀ x, keyLt x key = true → headKeyLt x l = true → headKeyLt x (mInsert l key val) = true) := by
  induction l with
  | nil =>
    refine ⟨rfl, ?_⟩
    intro x hx _
    simpa [mInsert, headKeyLt] using hx
  | cons e t ih =>
    obtain ⟨k₁, v₁⟩ := e
    rw [keysSorted_cons] at h
    have hhead : headKeyLt k₁ t = true := (Bool.and_eq_true_iff.mp h).1
    have htail : keysSorted t = true := (Bool.and_eq_true_iff.mp h).2
    obtain ⟨ihs, ihh⟩ := ih htail
    rw [mInsert]
    split
    · rename_i hlt
      constructor
      · rw [keysSorted_cons]
        simp only [headKeyLt]
        rw [hlt]
        rw [keysSorted_cons]
        simp [hhead, htail]
      · intro x hx _
        simpa [headKeyLt] using hx
    · split
      · rename_i hnlt heq
        subst heq
        constructor
        · rw [keysSorted_cons]
          simp [headKeyLt] at hhead ⊢
          exact ⟨hhead, htail⟩
        · intro x hx _
          simpa [headKeyLt] using hx
      · rename_i hnlt hne
        have hgt : keyLt k₁ key = true := by
          cases hck : keyLt k₁ key with
          | true => rfl
          | false =>
            exact absurd (keyLt_total key k₁ (by simpa using hnlt) hck) hne
        constructor
        · rw [keysSorted_cons]
          rw [ihh k₁ hgt hhead, ihs]
          rfl
        · intro x hx hhx
          simp only [headKeyLt] at hhx ⊢
          exact hhx

/-- Go map assignment with a key strictly above every key of a sorted list
appends at the end. -/
theorem mInsert_append_gt (l : List (String × Json)) (key : String) (val : Json)
    (h : ∀ e ∈ l, keyLt e.1 key = true) :
    mInsert l key val = l ++ [(key, val)] := by
  induction l with
  | nil => rfl
  | cons e t ih =>
    obtain ⟨k₁, v₁⟩ := e
    have h₁ : keyLt k₁ key = true := h (k₁, v₁) (List.mem_cons_self _ _)
    have hnlt : keyLt key k₁ = false := by
      cases hc : keyLt key k₁ with
      | false => rfl
      | true =>
        have := keyLt_trans _ _ _ h₁ hc
        rw [keyLt_irrefl] at this
        exact absurd this (by simp)
    have hne : key ≠ k₁ := by
      intro he
      subst he
      rw [keyLt_irrefl] at h₁
      exact absurd h₁ (by simp)
    rw [mInsert]
    rw [if_neg (by simp [hnlt]), if_neg hne]
    rw [ih (fun e he => h e (List.mem_cons_of_mem _ he))]
    rfl

/-- Rebuilding an already-sorted member list through Go-map insertion is the
identity (generalised over an accumulated sorted prefix). -/
theorem foldl_mInsert_sorted (ms acc : List (String × Json))
    (h : keysSorted (acc ++ ms) = true) :
    List.foldl (fun a kv => mInsert a kv.1 kv.2) acc ms = acc ++ ms := by
  induction ms generalizing acc with
  | nil => simp
  | cons e t ih =>
    obtain ⟨k, v⟩ := e
    have hall : ∀ p ∈ acc, keyLt p.1 k = true := by
      intro p hp
      clear ih
      induction acc with
      | nil => exact absurd hp (List.not_mem_nil p)
      | cons a as iha =>
        rw [List.cons_append, keysSorted_cons] at h
        obtain ⟨hh, ht⟩ := Bool.and_eq_true_iff.mp h
        rcases List.mem_cons.mp hp with he | hm
        · subst he
          clear iha hp
          induction as with
          | nil => simpa [headKeyLt] using hh
          | cons b bs ihb =>
            simp only [headKeyLt, List.cons_append] at hh
            rw [List.cons_append, keysSorted_cons] at ht
            obtain ⟨hh₂, ht₂⟩ := Bool.and_eq_true_iff.mp ht
            have hbk : headKeyLt p.1 (bs ++ (k, v) :: t) = true := by
              cases hbs : bs ++ (k, v) :: t with
              | nil => rfl
              | cons q qs =>
                simp only [headKeyLt]
                rw [hbs] at hh₂
                simp only [headKeyLt] at hh₂
                exact keyLt_trans _ _ _ hh hh₂
            exact ihb ht₂ (by simp [hbk, ht₂]) hbk
        · exact iha ht hm
    rw [List.foldl_cons]
    rw [mInsert_append_gt acc k v hall]
    have hres := ih (acc ++ [(k, v)]) (by simpa using h)
    simpa using hres

/-- Rebuilding a sorted member list through Go-map insertion order is the
identity. -/
theorem mOfList_sorted (ms : List (String × Json)) (h : keysSorted ms = true) :
    mOfList ms = ms := foldl_mInsert_sorted ms [] h

/-- Go map assignment does not disturb other keys. -/
theorem mLookup_mInsert_ne (l : List (String × Json)) (key other : String) (val : Json)
    (h : key ≠ other) : mLookup (mInsert l key val) other = mLookup l other := by
  induction l with
  | nil => simp [mInsert, mLookup, fun hh => h hh]
  | cons e t ih =>
    obtain ⟨k₁, v₁⟩ := e
    rw [mInsert]
    split
    · simp [mLookup, h]
    · split
      · rename_i heq
        subst heq
        simp [mLookup, h]
      · simp only [mLookup]
        split
        · rfl
        · exact ih

/-- Go map assignment is idempotent. -/
theorem mInsert_idem (l : List (String × Json)) (key : String) (val : Json) :
    mInsert (mInsert l key val) key val = mInsert l key val := by
  induction l with
  | nil => simp [mInsert, keyLt_irrefl]
  | cons e t ih =>
    obtain ⟨k₁, v₁⟩ := e
    rw [mInsert]
    split
    · rw [mInsert]
      rw [if_neg (by simp [keyLt_irrefl]), if_pos rfl]
    · split
      · rw [mInsert]
        rw [if_neg (by simp [keyLt_irrefl]), if_pos rfl]
      · rename_i h₁ h₂
        rw [mInsert]
        rw [if_neg h₁, if_neg h₂, ih]

/-- Go map assignment with a well-formed value preserves memberwise
well-formedness. -/
theorem membersWF_mInsert (l : List (String × Json)) (key : String) (val : Json)
    (hl : membersWF l = true) (hv : jsonWF val = true) :
    membersWF (mInsert l key val) = true := by
  induction l with
  | nil => simp [mInsert, membersWF, hv]
  | cons e t ih =>
    obtain ⟨k₁, v₁⟩ := e
    rw [membersWF] at hl
    obtain ⟨h₁, h₂⟩ := Bool.and_eq_true_iff.mp hl
    rw [mInsert]
    split
    · rw [membersWF, membersWF]
      simp [hv, h₁, h₂]
    · split
      · rw [membersWF]
        simp [hv, h₂]
      · rw [membersWF]
        simp [h₁, ih h₂]

/-- Every value of a memberwise well-formed object is well-formed. -/
theorem mLookup_membersWF (l : List (String × Json)) (k : String) (v : Json)
    (hl : membersWF l = true) (hv : mLookup l k = some v) : jsonWF v = true := by
  induction l with
  | nil => exact absurd hv (by simp [mLookup])
  | cons e t ih =>
    obtain ⟨k₁, v₁⟩ := e
    rw [membersWF] at hl
    obtain ⟨h₁, h₂⟩ := Bool.and_eq_true_iff.mp hl
    rw [mLookup] at hv
    by_cases he : k₁ = k
    · rw [if_pos he] at hv
      cases hv
      exact h₁
    · rw [if_neg he] at hv
      exact ih h₂ hv

/-- The loop body does not change whether a record matches. -/
theorem elemMatches_rwElem (e : Json) : elemMatches ((rwElem e).1) = elemMatches e := by
  cases hm : elemMatches e with
  | false => rw [rwElem_unmatched e hm, hm]
  | true =>
    obtain ⟨em, he, hrw⟩ := rwElem_matched e hm
    subst he
    rw [hrw]
    simp only [elemMatches] at hm ⊢
    rw [mLookup_mInsert_ne _ _ _ _ (by decide)]
    exact hm

/-- The loop body is idempotent on records: reprocessing an already
processed record changes nothing and reports the original match flag. -/
theorem rwElem_rwElem (e : Json) : rwElem ((rwElem e).1) = ((rwElem e).1, elemMatches e) := by
  cases hm : elemMatches e with
  | false =>
    rw [rwElem_unmatched e hm]
    exact rwElem_unmatched e hm
  | true =>
    obtain ⟨em, he, hrw⟩ := rwElem_matched e hm
    subst he
    rw [hrw]
    have hm' : elemMatches (Json.obj (mInsert em "value" (Json.str "true"))) = true := by
      have := elemMatches_rwElem (Json.obj em)
      rw [hrw] at this
      simp only at this
      rw [this, hm]
    obtain ⟨em', he', hrw'⟩ := rwElem_matched _ hm'
    cases he'
    rw [hrw']
    rw [mInsert_idem]

/-- The loop body preserves value well-formedness. -/
theorem jsonWF_rwElem (e : Json) (h : jsonWF e = true) : jsonWF ((rwElem e).1) = true := by
  cases hm : elemMatches e with
  | false => rw [rwElem_unmatched e hm]; exact h
  | true =>
    obtain ⟨em, he, hrw⟩ := rwElem_matched e hm
    subst he
    rw [hrw]
    simp only [jsonWF] at h ⊢
    obtain ⟨h₁, h₂⟩ := Bool.and_eq_true_iff.mp h
    rw [(mInsert_keysSorted em "value" (Json.str "true") h₁).1]
    rw [membersWF_mInsert em "value" (Json.str "true") h₂ (by rfl)]
    rfl

/-- The processed record list is memberwise well-formed when the input is. -/
theorem itemsWF_map_rwElem (xs : List Json) (h : itemsWF xs = true) :
    itemsWF (xs.map (fun e => (rwElem e).1)) = true := by
  induction xs with
  | nil => rfl
  | cons x t ih =>
    rw [itemsWF] at h
    obtain ⟨h₁, h₂⟩ := Bool.and_eq_true_iff.mp h
    rw [List.map_cons, itemsWF]
    simp [jsonWF_rwElem x h₁, ih h₂]

/-- Processing preserves which records match, elementwise over the list. -/
theorem any_elemMatches_map_rwElem (xs : List Json) :
    (xs.map (fun e => (rwElem e).1)).any elemMatches = xs.any elemMatches := by
  induction xs with
  | nil => rfl
  | cons x t ih =>
    rw [List.map_cons, List.any_cons, List.any_cons, ih, elemMatches_rwElem]

/-- Reprocessing the processed record list changes nothing. -/
theorem map_rwElem_idem (xs : List Json) :
    (xs.map (fun e => (rwElem e).1)).map (fun e => (rwElem e).1)
      = xs.map (fun e => (rwElem e).1) := by
  induction xs with
  | nil => rfl
  | cons x t ih =>
    rw [List.map_cons, List.map_cons, ih, rwElem_rwElem x]

/-- A character is recovered from its code point. -/
theorem charOfNat_toNat (c : Char) : Char.ofNat c.toNat = c := by
  rcases c with ⟨⟨⟨n, hlt⟩⟩, hv⟩
  simp only [Char.ofNat, Char.toNat, hv, Char.ofNatAux, dif_pos]
  rfl

/-- Characters with equal code points are equal. -/
theorem char_eq_of_chCode (c : Char) (n : Nat) (h : chCode c = n) : c = Char.ofNat n := by
  rw [← h, chCode, charOfNat_toNat]

/-- The encoder's hexadecimal digits are hexadecimal digits. -/
theorem isHexCh_hexDigitCh (n : Nat) (h : n < 16) : isHexCh (hexDigitCh n) = true := by
  have : ∀ m : Fin 16, isHexCh (hexDigitCh m.val) = true := by decide
  exact this ⟨n, h⟩

/-- Hexadecimal digits decode to their value. -/
theorem hexVal_hexDigitCh (n : Nat) (h : n < 16) : hexVal (hexDigitCh n) = n := by
  have : ∀ m : Fin 16, hexVal (hexDigitCh m.val) = m.val := by decide
  exact this ⟨n, h⟩

/-- Emission of one escaped character prepends to the emission of the rest. -/
theorem escapeChars_cons (c : Char) (cs : List Char) :
    escapeChars (c :: cs) = escChar c ++ escapeChars cs := rfl

/-- Decoding a `\u00xx` escape of a control character recovers it. -/
theorem parseStrBody_hex_low (f : Nat) (n : Nat) (t : List Char) (h : n < 0x20) :
    parseStrBody (f + 1) ('\\' :: 'u' :: '0' :: '0' :: hexDigitCh (n / 16) :: hexDigitCh (n % 16) :: t)
      = consCh (Char.ofNat n) (parseStrBody f t) := by
  have hdiv : n / 16 < 16 := by omega
  have hmod : n % 16 < 16 := by omega
  rw [parseStrBody]
  simp only [reduceIte, reduceCtorEq, Char.reduceEq]
  rw [isHexCh_hexDigitCh _ hdiv, isHexCh_hexDigitCh _ hmod, hexVal_hexDigitCh _ hdiv,
    hexVal_hexDigitCh _ hmod]
  rw [(by decide : isHexCh '0' = true), (by decide : hexVal '0' = 0)]
  rw [(by omega : 0 * 4096 + 0 * 256 + n / 16 * 16 + n % 16 = n)]
  rw [decide_eq_false (by omega : ¬(55296 ≤ n))]
  rw [decide_eq_false (by omega : ¬(56320 ≤ n))]
  simp

/-- An unescaped ordinary character is consumed verbatim by the string-body
decoder. -/
theorem parseStrBody_step_raw (f : Nat) (c : Char) (t : List Char)
    (h1 : ¬ c = '"') (h2 : ¬ c = '\\') (h3 : ¬ chCode c < 0x20) :
    parseStrBody (f + 1) (c :: t) = consCh c (parseStrBody f t) := by
  simp only [parseStrBody]
  rw [if_neg h1, if_neg h2, if_neg h3]

/-- Decoding inverts encoding for string bodies: the decoder applied to the
encoder's output (with the closing quote and any tail appended) recovers the
original characters exactly, for every sufficient fuel. -/
theorem parseStrBody_escape (cs : List Char) :
    ∀ (rest : List Char) (fuel : Nat), (escapeChars cs).length < fuel →
    parseStrBody fuel (escapeChars cs ++ '"' :: rest) = some (cs, rest) := by
  induction cs with
  | nil =>
    intro rest fuel hf
    obtain ⟨f, rfl⟩ : ∃ f, fuel = f + 1 := ⟨fuel - 1, by omega⟩
    rfl
  | cons c cs ih =>
    intro rest fuel hf
    rw [escapeChars_cons] at hf ⊢
    by_cases h1 : c = '"'
    · subst h1
      obtain ⟨f, rfl⟩ : ∃ f, fuel = f + 1 := ⟨fuel - 1, by omega⟩
      have hlen : (escapeChars cs).length < f := by
        simp [escChar, List.length_append] at hf
        omega
      calc parseStrBody (f + 1) (escChar '"' ++ escapeChars cs ++ '"' :: rest)
          = consCh '"' (parseStrBody f (escapeChars cs ++ '"' :: rest)) := rfl
        _ = some ('"' :: cs, rest) := by rw [ih rest f hlen]; rfl
    · by_cases h2 : c = '\\'
      · subst h2
        obtain ⟨f, rfl⟩ : ∃ f, fuel = f + 1 := ⟨fuel - 1, by omega⟩
        have hlen : (escapeChars cs).length < f := by
          simp [escChar, List.length_append] at hf
          omega
        calc parseStrBody (f + 1) (escChar '\\' ++ escapeChars cs ++ '"' :: rest)
            = consCh '\\' (parseStrBody f (escapeChars cs ++ '"' :: rest)) := rfl
          _ = some ('\\' :: cs, rest) := by rw [ih rest f hlen]; rfl
      · by_cases h3 : c = '\n'
        · subst h3
          obtain ⟨f, rfl⟩ : ∃ f, fuel = f + 1 := ⟨fuel - 1, by omega⟩
          have hlen : (escapeChars cs).length < f := by
            simp [escChar, List.length_append] at hf
            omega
          calc parseStrBody (f + 1) (escChar '\n' ++ escapeChars cs ++ '"' :: rest)
              = consCh '\n' (parseStrBody f (escapeChars cs ++ '"' :: rest)) := rfl
            _ = some ('\n' :: cs, rest) := by rw [ih rest f hlen]; rfl
        · by_cases h4 : c = '\r'
          · subst h4
            obtain ⟨f, rfl⟩ : ∃ f, fuel = f + 1 := ⟨fuel - 1, by omega⟩
            have hlen : (escapeChars cs).length < f := by
              simp [escChar, List.length_append] at hf
              omega
            calc parseStrBody (f + 1) (escChar '\r' ++ escapeChars cs ++ '"' :: rest)
                = consCh '\r' (parseStrBody f (escapeChars cs ++ '"' :: rest)) := rfl
              _ = some ('\r' :: cs, rest) := by rw [ih rest f hlen]; rfl
          · by_cases h5 : c = '\t'
            · subst h5
              obtain ⟨f, rfl⟩ : ∃ f, fuel = f + 1 := ⟨fuel - 1, by omega⟩
              have hlen : (escapeChars cs).length < f := by
                simp [escChar, List.length_append] at hf
                omega
              calc parseStrBody (f + 1) (escChar '\t' ++ escapeChars cs ++ '"' :: rest)
                  = consCh '\t' (parseStrBody f (escapeChars cs ++ '"' :: rest)) := rfl
                _ = some ('\t' :: cs, rest) := by rw [ih rest f hlen]; rfl
            · by_cases h6 : chCode c < 0x20
              · have hesc : escChar c
                    = ['\\', 'u', '0', '0', hexDigitCh (chCode c / 16), hexDigitCh (chCode c % 16)] := by
                  rw [escChar, if_neg h1, if_neg h2, if_neg h3, if_neg h4, if_neg h5, if_pos h6]
                rw [hesc] at hf ⊢
                obtain ⟨f, rfl⟩ : ∃ f, fuel = f + 1 := ⟨fuel - 1, by omega⟩
                have hlen : (escapeChars cs).length < f := by
                  simp [List.length_append] at hf
                  omega
                simp only [List.cons_append, List.nil_append]
                rw [parseStrBody_hex_low f (chCode c) _ h6]
                have hcc : Char.ofNat (chCode c) = c := charOfNat_toNat c
                rw [hcc, ih rest f hlen]
                rfl
              · by_cases h7 : c = '<'
                · subst h7
                  obtain ⟨f, rfl⟩ : ∃ f, fuel = f + 1 := ⟨fuel - 1, by omega⟩
                  have hlen : (escapeChars cs).length < f := by
                    rw [(by decide : escChar '<' = ['\\', 'u', '0', '0', '3', 'c'])] at hf
                    simp [List.length_append] at hf
                    omega
                  calc parseStrBody (f + 1) (escChar '<' ++ escapeChars cs ++ '"' :: rest)
                      = consCh '<' (parseStrBody f (escapeChars cs ++ '"' :: rest)) := rfl
                    _ = some ('<' :: cs, rest) := by rw [ih rest f hlen]; rfl
                · by_cases h8 : c = '>'
                  · subst h8
                    obtain ⟨f, rfl⟩ : ∃ f, fuel = f + 1 := ⟨fuel - 1, by omega⟩
                    have hlen : (escapeChars cs).length < f := by
                      rw [(by decide : escChar '>' = ['\\', 'u', '0', '0', '3', 'e'])] at hf
                      simp [List.length_append] at hf
                      omega
                    calc parseStrBody (f + 1) (escChar '>' ++ escapeChars cs ++ '"' :: rest)
                        = consCh '>' (parseStrBody f (escapeChars cs ++ '"' :: rest)) := rfl
                      _ = some ('>' :: cs, rest) := by rw [ih rest f hlen]; rfl
                  · by_cases h9 : c = '&'
                    · subst h9
                      obtain ⟨f, rfl⟩ : ∃ f, fuel = f + 1 := ⟨fuel - 1, by omega⟩
                      have hlen : (escapeChars cs).length < f := by
                        rw [(by decide : escChar '&' = ['\\', 'u', '0', '0', '2', '6'])] at hf
                        simp [List.length_append] at hf
                        omega
                      calc parseStrBody (f + 1) (escChar '&' ++ escapeChars cs ++ '"' :: rest)
                          = consCh '&' (parseStrBody f (escapeChars cs ++ '"' :: rest)) := rfl
                        _ = some ('&' :: cs, rest) := by rw [ih rest f hlen]; rfl
                    · by_cases h10 : chCode c = 0x2028
                      · have hc := char_eq_of_chCode c _ h10
                        subst hc
                        obtain ⟨f, rfl⟩ : ∃ f, fuel = f + 1 := ⟨fuel - 1, by omega⟩
                        have hlen : (escapeChars cs).length < f := by
                          rw [(by decide : escChar (Char.ofNat 0x2028) = ['\\', 'u', '2', '0', '2', '8'])] at hf
                          simp [List.length_append] at hf
                          omega
                        calc parseStrBody (f + 1)
                              (escChar (Char.ofNat 0x2028) ++ escapeChars cs ++ '"' :: rest)
                            = consCh (Char.ofNat 0x2028) (parseStrBody f (escapeChars cs ++ '"' :: rest)) := rfl
                          _ = some (Char.ofNat 0x2028 :: cs, rest) := by rw [ih rest f hlen]; rfl
                      · by_cases h11 : chCode c = 0x2029
                        · have hc := char_eq_of_chCode c _ h11
                          subst hc
                          obtain ⟨f, rfl⟩ : ∃ f, fuel = f + 1 := ⟨fuel - 1, by omega⟩
                          have hlen : (escapeChars cs).length < f := by
                            rw [(by decide : escChar (Char.ofNat 0x2029) = ['\\', 'u', '2', '0', '2', '9'])] at hf
                            simp [List.length_append] at hf
                            omega
                          calc parseStrBody (f + 1)
                                (escChar (Char.ofNat 0x2029) ++ escapeChars cs ++ '"' :: rest)
                              = consCh (Char.ofNat 0x2029) (parseStrBody f (escapeChars cs ++ '"' :: rest)) := rfl
                            _ = some (Char.ofNat 0x2029 :: cs, rest) := by rw [ih rest f hlen]; rfl
                        · have hesc : escChar c = [c] := by
                            rw [escChar, if_neg h1, if_neg h2, if_neg h3, if_neg h4, if_neg h5,
                              if_neg h6, if_neg h7, if_neg h8, if_neg h9, if_neg h10, if_neg h11]
                          rw [hesc] at hf ⊢
                          obtain ⟨f, rfl⟩ : ∃ f, fuel = f + 1 := ⟨fuel - 1, by omega⟩
                          have hlen : (escapeChars cs).length < f := by
                            simp [List.length_append] at hf
                            omega
                          simp only [List.cons_append, List.nil_append]
                          rw [parseStrBody_step_raw f c _ h1 h2 h6, ih rest f hlen]
                          rfl

/-- The first character surviving `dropWhile` fails the predicate. -/
theorem headDropWhile_false (p : Char → Bool) (l : List Char) (c : Char)
    (h : (l.dropWhile p).head? = some c) : p c = false := by
  induction l with
  | nil => simp [List.dropWhile] at h
  | cons a t ih =>
    rw [List.dropWhile] at h
    split at h
    · exact ih h
    · rename_i hpa
      rw [List.head?] at h
      cases h
      exact hpa

/-- Taking while a predicate holds is idempotent. -/
theorem takeWhile_idem (p : Char → Bool) (l : List Char) :
    (l.takeWhile p).takeWhile p = l.takeWhile p := by
  induction l with
  | nil => rfl
  | cons a t ih =>
    cases hpa : p a with
    | true => simp [List.takeWhile, hpa, ih]
    | false => simp [List.takeWhile, hpa]

/-- A run of characters satisfying the predicate followed by a blocked head
splits exactly at the run under `takeWhile`/`dropWhile`. -/
theorem span_append (p : Char → Bool) (ds rest : List Char)
    (hds : ds.takeWhile p = ds)
    (hrest : ∀ c, rest.head? = some c → p c = false) :
    (ds ++ rest).takeWhile p = ds ∧ (ds ++ rest).dropWhile p = rest := by
  induction ds with
  | nil =>
    cases rest with
    | nil => exact ⟨rfl, rfl⟩
    | cons c t =>
      have hc := hrest c rfl
      constructor
      · simp [List.takeWhile, hc]
      · simp [List.dropWhile, hc]
  | cons d t ih =>
    have hd : p d = true := by
      cases hpd : p d with
      | true => rfl
      | false =>
        rw [List.takeWhile, hpd] at hds
        simp at hds
    have ht : t.takeWhile p = t := by
      rw [List.takeWhile, hd] at hds
      simpa using hds
    obtain ⟨ih₁, ih₂⟩ := ih ht
    constructor
    · rw [List.cons_append]
      simp [List.takeWhile, hd, ih₁]
    · rw [List.cons_append]
      simp [List.dropWhile, hd, ih₂]

/-- Every character of a `takeWhile` run satisfies the predicate (in the
run-form used here). -/
theorem takeWhile_run (p : Char → Bool) (l : List Char) :
    (l.takeWhile p).takeWhile p = l.takeWhile p := takeWhile_idem p l

/-- A list splits as its `takeWhile` run followed by its `dropWhile` rest. -/
theorem takeWhile_append_dropWhile_ch (p : Char → Bool) (l : List Char) :
    l.takeWhile p ++ l.dropWhile p = l := List.takeWhile_append_dropWhile p l

/-- `parseFrac` on input not starting with a dot consumes nothing. -/
theorem parseFrac_not_dot (s : List Char) (h : ∀ t, s ≠ '.' :: t) :
    parseFrac s = some ([], s) := by
  rw [parseFrac.eq_def]
  split
  · rename_i t
    exact absurd rfl (h t)
  · rfl

/-- Appending input whose head can neither start nor extend a fraction
commutes with `parseFrac`. -/
theorem parseFrac_append (s ext fr r : List Char) (h : parseFrac s = some (fr, r))
    (hext : ∀ c, ext.head? = some c → c.isDigit = false ∧ c ≠ '.') :
    parseFrac (s ++ ext) = some (fr, r ++ ext) := by
  cases s with
  | nil =>
    rw [parseFrac_not_dot [] (by intro t hh; exact absurd hh (by simp))] at h
    cases h
    rw [List.nil_append]
    exact parseFrac_not_dot ext (by
      intro t hh
      cases ext with
      | nil => exact absurd hh (by simp)
      | cons c t' =>
        have := (hext c rfl).2
        rw [List.cons.injEq] at hh
        exact this hh.1)
  | cons a s' =>
    by_cases ha : a = '.'
    · subst ha
      rw [parseFrac] at h
      by_cases hds : s'.takeWhile Char.isDigit = []
      · rw [if_pos hds] at h
        exact absurd h (by simp)
      · rw [if_neg hds] at h
        rw [Option.some.injEq, Prod.mk.injEq] at h
        obtain ⟨hfr, hr⟩ := h
        rw [List.cons_append, parseFrac]
        have hsplit : s' = s'.takeWhile Char.isDigit ++ s'.dropWhile Char.isDigit :=
          (takeWhile_append_dropWhile_ch Char.isDigit s').symm
        have hspan := span_append Char.isDigit (s'.takeWhile Char.isDigit)
          (s'.dropWhile Char.isDigit ++ ext) (takeWhile_idem _ _)
          (by
            intro c hc
            cases hdw : s'.dropWhile Char.isDigit with
            | nil =>
              rw [hdw, List.nil_append] at hc
              exact (hext c hc).1
            | cons b t' =>
              rw [hdw, List.cons_append, List.head?] at hc
              cases hc
              exact headDropWhile_false Char.isDigit s' c (by rw [hdw]; rfl))
        have heq : s' ++ ext
            = s'.takeWhile Char.isDigit ++ (s'.dropWhile Char.isDigit ++ ext) := by
          conv_lhs => rw [hsplit]
          rw [List.append_assoc]
        rw [heq, hspan.1, hspan.2]
        rw [if_neg hds]
        rw [← hfr, ← hr]
    · rw [parseFrac_not_dot (a :: s') (by
        intro t hh
        rw [List.cons.injEq] at hh
        exact ha hh.1)] at h
      cases h
      rw [List.cons_append]
      exact parseFrac_not_dot (a :: (s' ++ ext)) (by
        intro t hh
        rw [List.cons.injEq] at hh
        exact ha hh.1)

/-- Appending digit-blocked input commutes with the exponent digit run. -/
theorem expDigits_append (e : Char) (sgn t₁ ext ex r : List Char)
    (h : expDigits e sgn t₁ = some (ex, r))
    (hext : ∀ c, ext.head? = some c → c.isDigit = false) :
    expDigits e sgn (t₁ ++ ext) = some (ex, r ++ ext) := by
  rw [expDigits] at h ⊢
  by_cases hds : t₁.takeWhile Char.isDigit = []
  · rw [if_pos hds] at h
    exact absurd h (by simp)
  · rw [if_neg hds] at h
    rw [Option.some.injEq, Prod.mk.injEq] at h
    obtain ⟨hex, hr⟩ := h
    have hsplit : t₁ = t₁.takeWhile Char.isDigit ++ t₁.dropWhile Char.isDigit :=
      (takeWhile_append_dropWhile_ch Char.isDigit t₁).symm
    have hspan := span_append Char.isDigit (t₁.takeWhile Char.isDigit)
      (t₁.dropWhile Char.isDigit ++ ext) (takeWhile_idem _ _)
      (by
        intro c hc
        cases hdw : t₁.dropWhile Char.isDigit with
        | nil =>
          rw [hdw, List.nil_append] at hc
          exact hext c hc
        | cons b t' =>
          rw [hdw, List.cons_append, List.head?] at hc
          cases hc
          exact headDropWhile_false Char.isDigit t₁ c (by rw [hdw]; rfl))
    have heq : t₁ ++ ext
        = t₁.takeWhile Char.isDigit ++ (t₁.dropWhile Char.isDigit ++ ext) := by
      conv_lhs => rw [hsplit]
      rw [List.append_assoc]
    rw [heq, hspan.1, hspan.2]
    rw [if_neg hds]
    rw [← hex, ← hr]

/-- Arm selection: with neither sign present, the exponent digits follow the
marker directly. -/
theorem parseExpPart_nosign (e c' : Char) (t₁ : List Char)
    (h1 : c' ≠ '+') (h2 : c' ≠ '-') (he : (e = 'e' || e = 'E') = true) :
    parseExpPart (e :: c' :: t₁) = expDigits e [] (c' :: t₁) := by
  simp only [parseExpPart]
  rw [if_pos he]
  split
  · rename_i heq
    rw [List.cons.injEq] at heq
    exact absurd heq.1 h1
  · rename_i heq
    rw [List.cons.injEq] at heq
    exact absurd heq.1 h2
  · rfl

/-- Appending input whose head can neither start nor extend an exponent
commutes with `parseExpPart`. -/
theorem parseExpPart_append (s ext ex r : List Char) (h : parseExpPart s = some (ex, r))
    (hext : ∀ c, ext.head? = some c → c.isDigit = false ∧ c ≠ 'e' ∧ c ≠ 'E') :
    parseExpPart (s ++ ext) = some (ex, r ++ ext) := by
  cases s with
  | nil =>
    simp only [parseExpPart, Option.some.injEq, Prod.mk.injEq] at h
    obtain ⟨h1, h2⟩ := h
    subst h1
    subst h2
    rw [List.nil_append]
    cases ext with
    | nil => rfl
    | cons c t =>
      obtain ⟨_, hce, hcE⟩ := hext c rfl
      simp [parseExpPart, hce, hcE]
  | cons e t =>
    by_cases he : (e = 'e' || e = 'E') = true
    · rw [List.cons_append]
      cases t with
      | nil =>
        simp only [parseExpPart] at h
        rw [if_pos he] at h
        simp [expDigits] at h
      | cons c' t₁ =>
        by_cases hplus : c' = '+'
        · subst hplus
          simp only [parseExpPart] at h ⊢
          rw [if_pos he] at h ⊢
          rw [List.cons_append]
          exact expDigits_append e ['+'] t₁ ext ex r h (fun c hc => (hext c hc).1)
        · by_cases hminus : c' = '-'
          · subst hminus
            simp only [parseExpPart] at h ⊢
            rw [if_pos he] at h ⊢
            rw [List.cons_append]
            exact expDigits_append e ['-'] t₁ ext ex r h (fun c hc => (hext c hc).1)
          · rw [parseExpPart_nosign e c' t₁ hplus hminus he] at h
            rw [List.cons_append]
            rw [parseExpPart_nosign e c' (t₁ ++ ext) hplus hminus he]
            have := expDigits_append e [] (c' :: t₁) ext ex r h (fun c hc => (hext c hc).1)
            rw [List.cons_append] at this
            exact this
    · simp only [parseExpPart] at h
      rw [if_neg he] at h
      rw [Option.some.injEq, Prod.mk.injEq] at h
      obtain ⟨h1, h2⟩ := h
      subst h1
      rw [List.cons_append]
      simp only [parseExpPart]
      rw [if_neg he]
      rw [← h2]
      rfl

/-- Appending input whose head cannot extend any part of a number tail
commutes with `numTail`. -/
theorem numTail_append (ip s ext l r : List Char) (h : numTail ip s = some (l, r))
    (hext : ∀ c, ext.head? = some c → c.isDigit = false ∧ c ≠ '.' ∧ c ≠ 'e' ∧ c ≠ 'E') :
    numTail ip (s ++ ext) = some (l, r ++ ext) := by
  rw [numTail] at h ⊢
  cases hf : parseFrac s with
  | none => rw [hf] at h; simp at h
  | some pr =>
    obtain ⟨fr, s₁⟩ := pr
    simp only [hf] at h
    cases hx : parseExpPart s₁ with
    | none => simp [hx] at h
    | some pe =>
      obtain ⟨ex, s₂⟩ := pe
      simp only [hx, Option.some.injEq, Prod.mk.injEq] at h
      obtain ⟨hl, hr⟩ := h
      have hf' := parseFrac_append s ext fr s₁ hf (fun c hc => ⟨(hext c hc).1, (hext c hc).2.1⟩)
      have hx' := parseExpPart_append s₁ ext ex s₂ hx
        (fun c hc => ⟨(hext c hc).1, (hext c hc).2.2.1, (hext c hc).2.2.2⟩)
      simp only [hf', hx']
      rw [← hl, ← hr]

/-- Arm selection: a nonzero head digit starts the general integer arm. -/
theorem parseInt_digit (c : Char) (t : List Char) (h0 : c ≠ '0') :
    parseInt (c :: t)
      = if c.isDigit then some (c :: t.takeWhile Char.isDigit, t.dropWhile Char.isDigit)
        else none := by
  rw [parseInt.eq_def]
  split
  · rename_i heq
    rw [List.cons.injEq] at heq
    exact absurd heq.1 h0
  · rename_i heq
    rw [List.cons.injEq] at heq
    rw [heq.1, heq.2]
  · rename_i heq
    simp at heq

/-- Appending digit-blocked input commutes with the integer part. -/
theorem parseInt_append (s ext ip r : List Char) (h : parseInt s = some (ip, r))
    (hext : ∀ c, ext.head? = some c → c.isDigit = false) :
    parseInt (s ++ ext) = some (ip, r ++ ext) := by
  cases s with
  | nil => simp [parseInt] at h
  | cons a t =>
    by_cases ha : a = '0'
    · subst ha
      rw [parseInt] at h
      simp only [Option.some.injEq, Prod.mk.injEq] at h
      obtain ⟨hip, hr⟩ := h
      rw [List.cons_append, parseInt]
      rw [← hip, ← hr]
    · rw [parseInt_digit a t ha] at h
      by_cases hd : a.isDigit = true
      · rw [if_pos hd] at h
        simp only [Option.some.injEq, Prod.mk.injEq] at h
        obtain ⟨hip, hr⟩ := h
        rw [List.cons_append, parseInt_digit a (t ++ ext) ha, if_pos hd]
        have hsplit : t = t.takeWhile Char.isDigit ++ t.dropWhile Char.isDigit :=
          (takeWhile_append_dropWhile_ch Char.isDigit t).symm
        have hspan := span_append Char.isDigit (t.takeWhile Char.isDigit)
          (t.dropWhile Char.isDigit ++ ext) (takeWhile_idem _ _)
          (by
            intro c hc
            cases hdw : t.dropWhile Char.isDigit with
            | nil =>
              rw [hdw, List.nil_append] at hc
              exact hext c hc
            | cons b t' =>
              rw [hdw, List.cons_append, List.head?] at hc
              cases hc
              exact headDropWhile_false Char.isDigit t c (by rw [hdw]; rfl))
        have heq : t ++ ext
            = t.takeWhile Char.isDigit ++ (t.dropWhile Char.isDigit ++ ext) := by
          conv_lhs => rw [hsplit]
          rw [List.append_assoc]
        rw [heq, hspan.1, hspan.2]
        rw [← hip, ← hr]
      · rw [if_neg hd] at h
        exact absurd h (by simp)

/-- Appending input whose head cannot extend any part of a number literal
commutes with `parseNum`. -/
theorem parseNum_append (s ext l r : List Char) (h : parseNum s = some (l, r))
    (hext : ∀ c, ext.head? = some c → c.isDigit = false ∧ c ≠ '.' ∧ c ≠ 'e' ∧ c ≠ 'E') :
    parseNum (s ++ ext) = some (l, r ++ ext) := by
  cases s with
  | nil => simp [parseNum, negSplit, parseInt] at h
  | cons a t =>
    by_cases ha : a = '-'
    · subst ha
      rw [parseNum] at h
      rw [List.cons_append, parseNum]
      simp only [negSplit] at h ⊢
      cases hi : parseInt t with
      | none => rw [hi] at h; simp at h
      | some pi =>
        obtain ⟨ip, s₂⟩ := pi
        rw [hi] at h
        have hi' := parseInt_append t ext ip s₂ hi (fun c hc => (hext c hc).1)
        simp only [hi']
        exact numTail_append _ _ _ _ _ h hext
    · have hns : negSplit (a :: t) = ([], a :: t) := by
        rw [negSplit.eq_def]
        split
        · rename_i heq
          rw [List.cons.injEq] at heq
          exact absurd heq.1 ha
        · rfl
      have hns' : negSplit (a :: (t ++ ext)) = ([], a :: (t ++ ext)) := by
        rw [negSplit.eq_def]
        split
        · rename_i heq
          rw [List.cons.injEq] at heq
          exact absurd heq.1 ha
        · rfl
      rw [parseNum] at h
      rw [List.cons_append, parseNum]
      rw [hns] at h
      rw [hns']
      simp only at h ⊢
      cases hi : parseInt (a :: t) with
      | none => rw [hi] at h; simp at h
      | some pi =>
        obtain ⟨ip, s₂⟩ := pi
        rw [hi] at h
        have hi' := parseInt_append (a :: t) ext ip s₂ hi (fun c hc => (hext c hc).1)
        rw [List.cons_append] at hi'
        simp only [hi']
        exact numTail_append _ _ _ _ _ h hext

/-- A full `takeWhile` run has nothing left to drop. -/
theorem dropWhile_nil_of_run (p : Char → Bool) (l : List Char) (h : l.takeWhile p = l) :
    l.dropWhile p = [] := by
  have hsplit := takeWhile_append_dropWhile_ch p l
  rw [h] at hsplit
  have hl := congrArg List.length hsplit
  simp only [List.length_append] at hl
  have hz : (l.dropWhile p).length = 0 := by omega
  exact List.eq_nil_of_length_eq_zero hz

/-- Head and tail facts of a nonempty full run. -/
theorem run_head (p : Char → Bool) (c : Char) (t : List Char)
    (h : (c :: t).takeWhile p = c :: t) : p c = true ∧ t.takeWhile p = t := by
  have hc : p c = true := by
    cases hpc : p c with
    | true => rfl
    | false =>
      rw [List.takeWhile, hpc] at h
      simp at h
  refine ⟨hc, ?_⟩
  rw [List.takeWhile, hc] at h
  simpa using h

/-- Shape of a successful fraction parse. -/
theorem parseFrac_shape (s fr r : List Char) (h : parseFrac s = some (fr, r)) :
    fr = [] ∨ ∃ ds, fr = '.' :: ds ∧ ds ≠ [] ∧ ds.takeWhile Char.isDigit = ds := by
  cases s with
  | nil =>
    left
    rw [parseFrac_not_dot [] (by intro t hh; exact absurd hh (by simp))] at h
    simp only [Option.some.injEq, Prod.mk.injEq] at h
    exact h.1.symm
  | cons a t =>
    by_cases ha : a = '.'
    · subst ha
      rw [parseFrac] at h
      by_cases hds : t.takeWhile Char.isDigit = []
      · rw [if_pos hds] at h
        exact absurd h (by simp)
      · rw [if_neg hds] at h
        simp only [Option.some.injEq, Prod.mk.injEq] at h
        right
        exact ⟨t.takeWhile Char.isDigit, h.1.symm, hds, takeWhile_idem _ _⟩
    · left
      rw [parseFrac_not_dot (a :: t) (by
        intro t' hh
        rw [List.cons.injEq] at hh
        exact ha hh.1)] at h
      simp only [Option.some.injEq, Prod.mk.injEq] at h
      exact h.1.symm

/-- A successful fraction re-parses on its own with nothing left. -/
theorem parseFrac_self (s fr r : List Char) (h : parseFrac s = some (fr, r)) :
    parseFrac fr = some (fr, []) := by
  rcases parseFrac_shape s fr r h with rfl | ⟨ds, rfl, hne, hrun⟩
  · rfl
  · rw [parseFrac, hrun, if_neg hne, dropWhile_nil_of_run _ _ hrun]

/-- Shape of a successful exponent parse. -/
theorem parseExpPart_shape (s ex r : List Char) (h : parseExpPart s = some (ex, r)) :
    ex = [] ∨ ∃ e sgn ds, ex = e :: (sgn ++ ds) ∧ (e = 'e' || e = 'E') = true ∧
      (sgn = [] ∨ sgn = ['+'] ∨ sgn = ['-']) ∧ ds ≠ [] ∧ ds.takeWhile Char.isDigit = ds := by
  cases s with
  | nil =>
    left
    simp only [parseExpPart, Option.some.injEq, Prod.mk.injEq] at h
    exact h.1.symm
  | cons e t =>
    by_cases he : (e = 'e' || e = 'E') = true
    · right
      have digits : ∀ sgn t₁, expDigits e sgn t₁ = some (ex, r) →
          ∃ ds, ex = e :: (sgn ++ ds) ∧ ds ≠ [] ∧ ds.takeWhile Char.isDigit = ds := by
        intro sgn t₁ hd
        rw [expDigits] at hd
        by_cases hds : t₁.takeWhile Char.isDigit = []
        · rw [if_pos hds] at hd
          exact absurd hd (by simp)
        · rw [if_neg hds] at hd
          simp only [Option.some.injEq, Prod.mk.injEq] at hd
          exact ⟨t₁.takeWhile Char.isDigit, hd.1.symm, hds, takeWhile_idem _ _⟩
      cases t with
      | nil =>
        simp only [parseExpPart, he, reduceIte] at h
        obtain ⟨ds, hex, hne, hrun⟩ := digits [] [] h
        exact ⟨e, [], ds, hex, he, Or.inl rfl, hne, hrun⟩
      | cons c' t₁ =>
        by_cases hplus : c' = '+'
        · subst hplus
          simp only [parseExpPart, he, reduceIte] at h
          obtain ⟨ds, hex, hne, hrun⟩ := digits ['+'] t₁ h
          exact ⟨e, ['+'], ds, hex, he, Or.inr (Or.inl rfl), hne, hrun⟩
        · by_cases hminus : c' = '-'
          · subst hminus
            simp only [parseExpPart, he, reduceIte] at h
            obtain ⟨ds, hex, hne, hrun⟩ := digits ['-'] t₁ h
            exact ⟨e, ['-'], ds, hex, he, Or.inr (Or.inr rfl), hne, hrun⟩
          · rw [parseExpPart_nosign e c' t₁ hplus hminus he] at h
            obtain ⟨ds, hex, hne, hrun⟩ := digits [] (c' :: t₁) h
            exact ⟨e, [], ds, hex, he, Or.inl rfl, hne, hrun⟩
    · left
      simp only [parseExpPart] at h
      rw [if_neg he] at h
      simp only [Option.some.injEq, Prod.mk.injEq] at h
      exact h.1.symm

/-- A successful exponent re-parses on its own with nothing left. -/
theorem parseExpPart_self (s ex r : List Char) (h : parseExpPart s = some (ex, r)) :
    parseExpPart ex = some (ex, []) := by
  rcases parseExpPart_shape s ex r h with rfl | ⟨e, sgn, ds, rfl, he, hsgn, hne, hrun⟩
  · rfl
  · have hexp : expDigits e sgn ds = some (e :: (sgn ++ ds), []) := by
      rw [expDigits, hrun, if_neg hne, dropWhile_nil_of_run _ _ hrun]
      simp [List.cons_append]
    rcases hsgn with rfl | rfl | rfl
    · simp only [List.nil_append] at hexp ⊢
      obtain ⟨d, ds', rfl⟩ : ∃ d ds', ds = d :: ds' := by
        cases ds with
        | nil => exact absurd rfl hne
        | cons d ds' => exact ⟨d, ds', rfl⟩
      have hd : d.isDigit = true := (run_head _ _ _ hrun).1
      have hdp : d ≠ '+' := by intro hh; rw [hh] at hd; simp at hd
      have hdm : d ≠ '-' := by intro hh; rw [hh] at hd; simp at hd
      rw [parseExpPart_nosign e d ds' hdp hdm he]
      exact hexp
    · simp only [parseExpPart, he, reduceIte]
      exact hexp
    · simp only [parseExpPart, he, reduceIte]
      exact hexp

/-- Shape and self-reparse of a successful integer-part parse. -/
theorem parseInt_self (s ip r : List Char) (h : parseInt s = some (ip, r)) :
    (∃ c t, ip = c :: t ∧ c.isDigit = true) ∧ parseInt ip = some (ip, []) := by
  cases s with
  | nil => simp [parseInt] at h
  | cons a t =>
    by_cases ha : a = '0'
    · subst ha
      rw [parseInt] at h
      simp only [Option.some.injEq, Prod.mk.injEq] at h
      rw [← h.1]
      exact ⟨⟨'0', [], rfl, by decide⟩, rfl⟩
    · rw [parseInt_digit a t ha] at h
      by_cases hd : a.isDigit = true
      · rw [if_pos hd] at h
        simp only [Option.some.injEq, Prod.mk.injEq] at h
        rw [← h.1]
        refine ⟨⟨a, t.takeWhile Char.isDigit, rfl, hd⟩, ?_⟩
        rw [parseInt_digit a _ ha, if_pos hd]
        rw [takeWhile_idem, dropWhile_nil_of_run _ _ (takeWhile_idem _ _)]
      · rw [if_neg hd] at h
        exact absurd h (by simp)

/-- Arm selection: a non-minus head means no sign is split off. -/
theorem negSplit_not_dash (c : Char) (t : List Char) (h : c ≠ '-') :
    negSplit (c :: t) = ([], c :: t) := by
  rw [negSplit.eq_def]
  split
  · rename_i heq
    rw [List.cons.injEq] at heq
    exact absurd heq.1 h
  · rfl

/-- The sign part is empty or a single minus. -/
theorem negSplit_shape (s neg s₁ : List Char) (h : negSplit s = (neg, s₁)) :
    neg = [] ∨ neg = ['-'] := by
  rw [negSplit.eq_def] at h
  split at h
  · rw [Prod.mk.injEq] at h
    exact Or.inr h.1.symm
  · rw [Prod.mk.injEq] at h
    exact Or.inl h.1.symm

/-- Reassembling a parsed number literal from its well-formed parts parses
back to exactly itself. -/
theorem parseNum_build (neg ip fr ex : List Char)
    (hneg : neg = [] ∨ neg = ['-'])
    (hip : parseInt ip = some (ip, []))
    (hiphead : ∃ c t, ip = c :: t ∧ c.isDigit = true)
    (hfr : parseFrac fr = some (fr, []))
    (hex : parseExpPart ex = some (ex, []))
    (hfrex : ∀ c', (fr ++ ex).head? = some c' → c'.isDigit = false)
    (hexHead : ∀ c', ex.head? = some c' → c'.isDigit = false ∧ c' ≠ '.') :
    parseNum (neg ++ ip ++ fr ++ ex) = some (neg ++ ip ++ fr ++ ex, []) := by
  obtain ⟨c, t, rfl, hcd⟩ := hiphead
  have hint := parseInt_append (c :: t) (fr ++ ex) (c :: t) [] hip hfrex
  rw [List.nil_append] at hint
  have hfr' := parseFrac_append fr ex fr [] hfr hexHead
  rw [List.nil_append] at hfr'
  have hnt : numTail (neg ++ (c :: t)) (fr ++ ex) = some (neg ++ (c :: t) ++ fr ++ ex, []) := by
    rw [numTail]
    simp only [hfr', hex]
  rcases hneg with rfl | rfl
  · have hc : c ≠ '-' := by
      intro hh
      rw [hh] at hcd
      exact absurd hcd (by decide)
    rw [List.nil_append] at hnt ⊢
    have hform : (c :: t) ++ fr ++ ex = c :: (t ++ (fr ++ ex)) := by
      simp [List.append_assoc]
    rw [hform, parseNum, negSplit_not_dash c _ hc]
    rw [List.cons_append] at hint
    simp only [hint]
    rw [List.nil_append]
    rw [hnt, hform]
  · have hform : ['-'] ++ (c :: t) ++ fr ++ ex = '-' :: ((c :: t) ++ (fr ++ ex)) := by
      simp [List.append_assoc]
    rw [hform, parseNum]
    simp only [negSplit]
    simp only [hint]
    rw [hnt, hform]

/-- A parsed number literal re-parses on its own with nothing left, and
starts with a minus sign or a digit. -/
theorem parseNum_self (s l r : List Char) (h : parseNum s = some (l, r)) :
    parseNum l = some (l, []) ∧ ∃ c t, l = c :: t ∧ (c = '-' ∨ c.isDigit = true) := by
  rw [parseNum] at h
  rcases hns : negSplit s with ⟨neg, s₁⟩
  simp only [hns] at h
  cases hi : parseInt s₁ with
  | none => simp [hi] at h
  | some pip =>
    obtain ⟨ip, s₂⟩ := pip
    simp only [hi] at h
    rw [numTail] at h
    cases hf : parseFrac s₂ with
    | none => simp [hf] at h
    | some pfr =>
      obtain ⟨fr, s₃⟩ := pfr
      simp only [hf] at h
      cases hx : parseExpPart s₃ with
      | none => simp [hx] at h
      | some pex =>
        obtain ⟨ex, s₄⟩ := pex
        simp only [hx, Option.some.injEq, Prod.mk.injEq] at h
        obtain ⟨hl, hr⟩ := h
        obtain ⟨⟨c, t, hipc, hcd⟩, hipSelf⟩ := parseInt_self s₁ ip s₂ hi
        have hfrSelf := parseFrac_self s₂ fr s₃ hf
        have hexSelf := parseExpPart_self s₃ ex s₄ hx
        have hfrShape := parseFrac_shape s₂ fr s₃ hf
        have hexShape := parseExpPart_shape s₃ ex s₄ hx
        have hexHead : ∀ c', ex.head? = some c' → c'.isDigit = false ∧ c' ≠ '.' := by
          intro c' hc'
          rcases hexShape with rfl | ⟨e, sgn, ds, rfl, he, _, _, _⟩
          · simp at hc'
          · rw [List.head?] at hc'
            cases hc'
            rcases Bool.or_eq_true_iff.mp he with h' | h' <;>
              rw [of_decide_eq_true h'] <;> exact ⟨by decide, by decide⟩
        have hfrex : ∀ c', (fr ++ ex).head? = some c' → c'.isDigit = false := by
          intro c' hc'
          rcases hfrShape with rfl | ⟨ds, rfl, _, _⟩
          · rw [List.nil_append] at hc'
            exact (hexHead c' hc').1
          · rw [List.cons_append, List.head?] at hc'
            cases hc'
            decide
        have hbuild := parseNum_build neg ip fr ex (negSplit_shape s neg s₁ hns)
          hipSelf ⟨c, t, hipc, hcd⟩ hfrSelf hexSelf hfrex hexHead
        rw [hl] at hbuild
        refine ⟨hbuild, ?_⟩
        rcases negSplit_shape s neg s₁ hns with rfl | rfl
        · rw [← hl, hipc, List.nil_append]
          exact ⟨c, t ++ fr ++ ex, by simp [List.append_assoc], Or.inr hcd⟩
        · rw [← hl, hipc]
          exact ⟨'-', t.append (fr ++ ex) |>.cons c |>.append []
              |>.append [], by simp, Or.inl rfl⟩

/-- Whitespace skipping is the identity on input with a non-whitespace head. -/
theorem skipWs_cons (c : Char) (t : List Char) (h : isJsonWs c = false) :
    skipWs (c :: t) = c :: t := by
  rw [skipWs, List.dropWhile]
  simp [h]

/-- A digit character is outside every other character class the parser
dispatches on. -/
theorem digit_class (c : Char) (h : c.isDigit = true) :
    isJsonWs c = false ∧ c ≠ 'n' ∧ c ≠ 't' ∧ c ≠ 'f' ∧ c ≠ '"' ∧ c ≠ '[' ∧
      c ≠ '{' ∧ c ≠ ']' := by
  have hsp : c ≠ ' ' := by intro hh; rw [hh] at h; exact absurd h (by decide)
  have htb : c ≠ '\t' := by intro hh; rw [hh] at h; exact absurd h (by decide)
  have hnl : c ≠ '\n' := by intro hh; rw [hh] at h; exact absurd h (by decide)
  have hcr : c ≠ '\r' := by intro hh; rw [hh] at h; exact absurd h (by decide)
  refine ⟨by simp [isJsonWs, hsp, htb, hnl, hcr], ?_, ?_, ?_, ?_, ?_, ?_, ?_⟩ <;>
    intro hh <;> rw [hh] at h <;> exact absurd h (by decide)

/-- The emission of a well-formed value is nonempty, and its first character
is not whitespace and not a closer. -/
theorem marshalChars_head_class (v : Json) (h : jsonWF v = true) :
    ∃ c t, marshalChars v = c :: t ∧ isJsonWs c = false ∧ c ≠ ']' := by
  cases v with
  | null => exact ⟨'n', _, rfl, by decide, by decide⟩
  | bool b => cases b
              · exact ⟨'f', _, rfl, by decide, by decide⟩
              · exact ⟨'t', _, rfl, by decide, by decide⟩
  | str s => exact ⟨'"', _, rfl, by decide, by decide⟩
  | arr xs => exact ⟨'[', _, rfl, by decide, by decide⟩
  | obj ms => exact ⟨'{', _, rfl, by decide, by decide⟩
  | num lit =>
    rw [jsonWF] at h
    have hp := of_decide_eq_true h
    obtain ⟨-, c, t, hl, hcd⟩ := parseNum_self _ _ _ hp
    refine ⟨c, t, by rw [marshalChars, hl], ?_, ?_⟩
    · rcases hcd with rfl | hd
      · decide
      · exact (digit_class c hd).1
    · rcases hcd with rfl | hd
      · decide
      · exact (digit_class c hd).2.2.2.2.2.2.2

/-- Go-map construction always yields a strictly key-sorted list. -/
theorem mOfList_keysSorted (l : List (String × Json)) : keysSorted (mOfList l) = true := by
  suffices h : ∀ acc, keysSorted acc = true →
      keysSorted (l.foldl (fun acc kv => mInsert acc kv.1 kv.2) acc) = true from h [] rfl
  induction l with
  | nil => intro acc hacc; exact hacc
  | cons kv t ih =>
    intro acc hacc
    exact ih _ (mInsert_keysSorted acc kv.1 kv.2 hacc).1

/-- Go-map construction from memberwise well-formed pairs is memberwise
well-formed. -/
theorem mOfList_membersWF (l : List (String × Json)) (h : membersWF l = true) :
    membersWF (mOfList l) = true := by
  suffices hgen : ∀ acc, membersWF acc = true → membersWF l = true →
      membersWF (l.foldl (fun acc kv => mInsert acc kv.1 kv.2) acc) = true from hgen [] rfl h
  clear h
  induction l with
  | nil => intro acc hacc _; exact hacc
  | cons kv t ih =>
    intro acc hacc hl
    obtain ⟨k, v⟩ := kv
    rw [membersWF] at hl
    obtain ⟨hv, ht⟩ := Bool.and_eq_true_iff.mp hl
    exact ih _ (membersWF_mInsert acc k v hacc hv) ht

/-- Key-sorting is the identity on well-formed values (their objects are
already sorted), by size-bounded induction. -/
theorem canonOrder_size (n : Nat) :
    (∀ v : Json, sizeOf v ≤ n → jsonWF v = true → canonOrder v = v)
    ∧ (∀ ms : List (String × Json), sizeOf ms ≤ n → membersWF ms = true →
        canonMembers ms = ms)
    ∧ (∀ xs : List Json, sizeOf xs ≤ n → itemsWF xs = true → canonItems xs = xs) := by
  induction n with
  | zero =>
    refine ⟨?_, ?_, ?_⟩
    · intro v hs _; cases v <;> simp at hs
    · intro ms hs _; cases ms <;> simp at hs
    · intro xs hs _; cases xs <;> simp at hs
  | succ n ih =>
    obtain ⟨ihv, ihm, ihx⟩ := ih
    refine ⟨?_, ?_, ?_⟩
    · intro v hs hwf
      cases v with
      | null => rfl
      | bool b => rfl
      | num lit => rfl
      | str s => rfl
      | arr xs =>
        rw [canonOrder, ihx xs (by simp at hs; omega) (by rw [jsonWF] at hwf; exact hwf)]
      | obj ms =>
        rw [jsonWF] at hwf
        obtain ⟨hsort, hmwf⟩ := Bool.and_eq_true_iff.mp hwf
        rw [canonOrder, ihm ms (by simp at hs; omega) hmwf, mOfList_sorted ms hsort]
    · intro ms hs hmwf
      cases ms with
      | nil => rfl
      | cons kv t =>
        obtain ⟨k, v⟩ := kv
        rw [membersWF] at hmwf
        obtain ⟨hv, ht⟩ := Bool.and_eq_true_iff.mp hmwf
        rw [canonMembers, ihv v (by simp at hs; omega) hv,
          ihm t (by simp at hs; omega) ht]
    · intro xs hs hxwf
      cases xs with
      | nil => rfl
      | cons x t =>
        rw [itemsWF] at hxwf
        obtain ⟨hx, ht⟩ := Bool.and_eq_true_iff.mp hxwf
        rw [canonItems, ihv x (by simp at hs; omega) hx, ihx t (by simp at hs; omega) ht]

/-- Key-sorting is the identity on well-formed values. -/
theorem canonOrder_eq_self (v : Json) (h : jsonWF v = true) : canonOrder v = v :=
  (canonOrder_size (sizeOf v)).1 v le_rfl h

/-- Every value the fueled parser produces is well-formed: objects are
built through Go-map insertion (hence sorted), and number literals are
exactly the characters the number grammar accepted. -/
theorem parseVal_wf (n : Nat) :
    (∀ s v rest, parseVal n s = some (v, rest) → jsonWF v = true)
    ∧ (∀ s vs rest, parseArrItems n s = some (vs, rest) → itemsWF vs = true)
    ∧ (∀ s ms rest, parseObjItems n s = some (ms, rest) → membersWF ms = true) := by
  induction n with
  | zero =>
    refine ⟨?_, ?_, ?_⟩ <;> intro s a rest h
    · rw [parseVal] at h
      exact Option.noConfusion h
    · rw [parseArrItems] at h
      exact Option.noConfusion h
    · rw [parseObjItems] at h
      exact Option.noConfusion h
  | succ m ih =>
    obtain ⟨ihv, ihx, ihm⟩ := ih
    refine ⟨?_, ?_, ?_⟩
    · intro s v rest h
      rw [parseVal] at h
      rcases hsk : skipWs s with _ | ⟨c, t⟩
      · simp only [hsk] at h
        exact Option.noConfusion h
      · simp only [hsk] at h
        by_cases h1 : c = 'n'
        · rw [if_pos h1] at h
          rcases Option.map_eq_some'.mp h with ⟨r', -, hv⟩
          rw [Prod.mk.injEq] at hv
          rw [← hv.1]
          rfl
        · rw [if_neg h1] at h
          by_cases h2 : c = 't'
          · rw [if_pos h2] at h
            rcases Option.map_eq_some'.mp h with ⟨r', -, hv⟩
            rw [Prod.mk.injEq] at hv
            rw [← hv.1]
            rfl
          · rw [if_neg h2] at h
            by_cases h3 : c = 'f'
            · rw [if_pos h3] at h
              rcases Option.map_eq_some'.mp h with ⟨r', -, hv⟩
              rw [Prod.mk.injEq] at hv
              rw [← hv.1]
              rfl
            · rw [if_neg h3] at h
              by_cases h4 : c = '"'
              · rw [if_pos h4] at h
                rcases Option.map_eq_some'.mp h with ⟨p, -, hv⟩
                rw [Prod.mk.injEq] at hv
                rw [← hv.1]
                rfl
              · rw [if_neg h4] at h
                by_cases h5 : c = '['
                · rw [if_pos h5] at h
                  cases hhd : headIs (skipWs t) ']'
                  · simp only [hhd, Bool.false_eq_true, if_false] at h
                    rcases Option.map_eq_some'.mp h with ⟨⟨vs, r'⟩, hp, hv⟩
                    rw [Prod.mk.injEq] at hv
                    rw [← hv.1, jsonWF]
                    exact ihx _ _ _ hp
                  · simp only [hhd, if_true] at h
                    rw [Option.some.injEq, Prod.mk.injEq] at h
                    rw [← h.1]
                    rfl
                · rw [if_neg h5] at h
                  by_cases h6 : c = '{'
                  · rw [if_pos h6] at h
                    cases hhd : headIs (skipWs t) '}'
                    · simp only [hhd, Bool.false_eq_true, if_false] at h
                      rcases Option.map_eq_some'.mp h with ⟨⟨ms, r'⟩, hp, hv⟩
                      rw [Prod.mk.injEq] at hv
                      rw [← hv.1, jsonWF]
                      simp [mOfList_keysSorted, mOfList_membersWF _ (ihm _ _ _ hp)]
                    · simp only [hhd, if_true] at h
                      rw [Option.some.injEq, Prod.mk.injEq] at h
                      rw [← h.1]
                      rfl
                  · rw [if_neg h6] at h
                    split at h
                    · rcases Option.map_eq_some'.mp h with ⟨⟨l, r'⟩, hp, hv⟩
                      rw [Prod.mk.injEq] at hv
                      rw [← hv.1, jsonWF]
                      exact decide_eq_true (parseNum_self _ _ _ hp).1
                    · exact Option.noConfusion h
    · intro s vs rest h
      rw [parseArrItems] at h
      cases hv : parseVal m s with
      | none =>
        simp only [hv] at h
        exact Option.noConfusion h
      | some p =>
        obtain ⟨v, r'⟩ := p
        simp only [hv] at h
        cases hc : headIs (skipWs r') ','
        · simp only [hc, Bool.false_eq_true, if_false] at h
          cases hb : headIs (skipWs r') ']'
          · simp only [hb, Bool.false_eq_true, if_false] at h
            exact Option.noConfusion h
          · simp only [hb, if_true, Option.some.injEq, Prod.mk.injEq] at h
            rw [← h.1]
            simp [itemsWF, ihv _ _ _ hv]
        · simp only [hc, if_true] at h
          rcases Option.map_eq_some'.mp h with ⟨⟨vs', r''⟩, hp, hpair⟩
          rw [Prod.mk.injEq] at hpair
          rw [← hpair.1]
          simp [itemsWF, ihv _ _ _ hv, ihx _ _ _ hp]
    · intro s ms rest h
      rw [parseObjItems] at h
      rcases hsk : skipWs s with _ | ⟨c, t⟩
      · simp only [hsk] at h
        exact Option.noConfusion h
      · simp only [hsk] at h
        by_cases h1 : c = '"'
        · rw [if_pos h1] at h
          cases hsb : parseStrBody (t.length + 1) t with
          | none =>
            simp only [hsb] at h
            exact Option.noConfusion h
          | some p =>
            obtain ⟨key, rest₁⟩ := p
            simp only [hsb] at h
            cases hcol : headIs (skipWs rest₁) ':'
            · simp only [hcol, Bool.false_eq_true, if_false] at h
              exact Option.noConfusion h
            · simp only [hcol, if_true] at h
              cases hpv : parseVal m (skipWs rest₁).tail with
              | none =>
                simp only [hpv] at h
                exact Option.noConfusion h
              | some q =>
                obtain ⟨v, rest₂⟩ := q
                simp only [hpv] at h
                cases hcm : headIs (skipWs rest₂) ','
                · simp only [hcm, Bool.false_eq_true, if_false] at h
                  cases hcb : headIs (skipWs rest₂) '}'
                  · simp only [hcb, Bool.false_eq_true, if_false] at h
                    exact Option.noConfusion h
                  · simp only [hcb, if_true, Option.some.injEq, Prod.mk.injEq] at h
                    rw [← h.1]
                    simp [membersWF, ihv _ _ _ hpv]
                · simp only [hcm, if_true] at h
                  rcases Option.map_eq_some'.mp h with ⟨⟨ms', r''⟩, hp, hpair⟩
                  rw [Prod.mk.injEq] at hpair
                  rw [← hpair.1]
                  simp [membersWF, ihv _ _ _ hpv, ihm _ _ _ hp]
        · rw [if_neg h1] at h
          exact Option.noConfusion h

/-- Every value `json.Unmarshal` decodes is well-formed. -/
theorem jsonUnmarshal_wf (s : String) (v : Json) (h : jsonUnmarshal s = some v) :
    jsonWF v = true := by
  rw [jsonUnmarshal] at h
  cases hp : parseVal (2 * s.data.length + 2) s.data with
  | none =>
    rw [hp] at h
    exact Option.noConfusion h
  | some p =>
    obtain ⟨v', rest⟩ := p
    simp only [hp] at h
    by_cases hr : skipWs rest = []
    · rw [if_pos hr, Option.some.injEq] at h
      rw [← h]
      exact (parseVal_wf _).1 _ _ _ hp
    · rw [if_neg hr] at h
      exact Option.noConfusion h

/-- Parsing the compact emission of a well-formed value recovers exactly that
value, with any boundary-compatible continuation untouched, for every fuel at
least twice the emitted length plus two (elements and members need one more). -/
theorem parse_marshal_round (n : Nat) :
    (∀ v rest, jsonWF v = true → numBoundary rest = true →
        2 * (marshalChars v).length + 2 ≤ n →
        parseVal n (marshalChars v ++ rest) = some (v, rest))
    ∧ (∀ xs rest, itemsWF xs = true → xs ≠ [] →
        2 * (itemsChars xs).length + 3 ≤ n →
        parseArrItems n (itemsChars xs ++ ']' :: rest) = some (xs, rest))
    ∧ (∀ ms rest, membersWF ms = true → ms ≠ [] →
        2 * (membersChars ms).length + 3 ≤ n →
        parseObjItems n (membersChars ms ++ '}' :: rest) = some (ms, rest)) := by
  induction n with
  | zero =>
    refine ⟨?_, ?_, ?_⟩
    · intro v rest _ _ hn
      exact absurd hn (by omega)
    · intro xs rest _ _ hn
      exact absurd hn (by omega)
    · intro ms rest _ _ hn
      exact absurd hn (by omega)
  | succ m ih =>
    obtain ⟨ihv, ihx, ihm⟩ := ih
    refine ⟨?_, ?_, ?_⟩
    · intro v rest hwf hb hn
      cases v with
      | null => rfl
      | bool b => cases b <;> rfl
      | str s =>
        have hinput : marshalChars (Json.str s) ++ rest
            = '"' :: (escapeChars s.data ++ '"' :: rest) := by
          rw [show marshalChars (Json.str s)
            = '"' :: (escapeChars s.data ++ ['"']) from rfl]
          simp
        rw [hinput]
        have hsk : skipWs ('"' :: (escapeChars s.data ++ '"' :: rest))
            = '"' :: (escapeChars s.data ++ '"' :: rest) := skipWs_cons _ _ (by decide)
        have hstr := parseStrBody_escape s.data rest
          ((escapeChars s.data ++ '"' :: rest).length + 1)
          (by simp [List.length_append]; omega)
        simp only [parseVal, hsk, reduceIte, hstr]
        rfl
      | num lit =>
        rw [jsonWF] at hwf
        have hp := of_decide_eq_true hwf
        obtain ⟨-, c, t, hl, hcd⟩ := parseNum_self _ _ _ hp
        have hext : ∀ c', rest.head? = some c' →
            c'.isDigit = false ∧ c' ≠ '.' ∧ c' ≠ 'e' ∧ c' ≠ 'E' := by
          intro c' hc'
          cases rest with
          | nil => exact absurd hc' (by simp)
          | cons r t' =>
            rw [numBoundary] at hb
            rw [List.head?] at hc'
            cases hc'
            rcases Bool.or_eq_true_iff.mp hb with h' | h'
            · rcases Bool.or_eq_true_iff.mp h' with h'' | h''
              · rw [of_decide_eq_true h'']
                exact ⟨by decide, by decide, by decide, by decide⟩
              · rw [of_decide_eq_true h'']
                exact ⟨by decide, by decide, by decide, by decide⟩
            · rw [of_decide_eq_true h']
              exact ⟨by decide, by decide, by decide, by decide⟩
        have happ := parseNum_append lit.data rest lit.data [] hp hext
        rw [List.nil_append] at happ
        have hinput : marshalChars (Json.num lit) ++ rest = c :: (t ++ rest) := by
          rw [show marshalChars (Json.num lit) = lit.data from rfl, hl]
          rfl
        have harg : c :: (t ++ rest) = lit.data ++ rest := by
          rw [hl]
          rfl
        rw [hinput]
        rcases hcd with rfl | hd
        · have hsk : skipWs ('-' :: (t ++ rest)) = '-' :: (t ++ rest) :=
            skipWs_cons _ _ (by decide)
          simp only [parseVal, hsk, reduceIte]
          rw [harg, happ]
          rfl
        · obtain ⟨hws, hn', ht', hf', hq', hlb, hob, -⟩ := digit_class c hd
          have hsk : skipWs (c :: (t ++ rest)) = c :: (t ++ rest) :=
            skipWs_cons _ _ hws
          simp only [parseVal, hsk]
          rw [if_neg hn', if_neg ht', if_neg hf', if_neg hq', if_neg hlb, if_neg hob,
            if_pos (by simp [hd])]
          rw [harg, happ]
          rfl
      | arr xs =>
        rw [jsonWF] at hwf
        cases xs with
        | nil => rfl
        | cons x xs' =>
          have hwx : jsonWF x = true :=
            (Bool.and_eq_true_iff.mp (by rw [itemsWF] at hwf; exact hwf)).1
          obtain ⟨c, tc, hmx, hws, hnb⟩ := marshalChars_head_class x hwx
          have hlen : 2 * (itemsChars (x :: xs')).length + 3 ≤ m := by
            rw [show marshalChars (Json.arr (x :: xs'))
              = '[' :: (itemsChars (x :: xs') ++ [']']) from rfl] at hn
            simp only [List.length_cons, List.length_append, List.length_singleton] at hn
            omega
          obtain ⟨t₂, ht₂⟩ : ∃ t₂, itemsChars (x :: xs') = c :: t₂ := by
            cases xs' with
            | nil => exact ⟨tc, by rw [show itemsChars [x] = marshalChars x from rfl, hmx]⟩
            | cons y ys =>
              refine ⟨tc ++ ',' :: itemsChars (y :: ys), ?_⟩
              rw [show itemsChars (x :: y :: ys)
                = marshalChars x ++ ',' :: itemsChars (y :: ys) from rfl, hmx]
              rfl
          have hinput : marshalChars (Json.arr (x :: xs')) ++ rest
              = '[' :: (c :: (t₂ ++ ']' :: rest)) := by
            rw [show marshalChars (Json.arr (x :: xs'))
              = '[' :: (itemsChars (x :: xs') ++ [']']) from rfl, ht₂]
            simp
          have hsk1 : skipWs ('[' :: (c :: (t₂ ++ ']' :: rest)))
              = '[' :: (c :: (t₂ ++ ']' :: rest)) := skipWs_cons _ _ (by decide)
          have hsk2 : skipWs (c :: (t₂ ++ ']' :: rest)) = c :: (t₂ ++ ']' :: rest) :=
            skipWs_cons _ _ hws
          have hhd : headIs (c :: (t₂ ++ ']' :: rest)) ']' = false := by
            simp [headIs, hnb]
          have hIH : parseArrItems m (itemsChars (x :: xs') ++ ']' :: rest)
              = some (x :: xs', rest) := ihx (x :: xs') rest hwf (by simp) hlen
          rw [hinput]
          simp only [parseVal, hsk1, reduceIte, hsk2, hhd, Bool.false_eq_true, if_false]
          have harg : c :: (t₂ ++ ']' :: rest) = itemsChars (x :: xs') ++ ']' :: rest := by
            rw [ht₂]
            rfl
          rw [harg, hIH]
          rfl
      | obj ms =>
        rw [jsonWF] at hwf
        obtain ⟨hsort, hmwf⟩ := Bool.and_eq_true_iff.mp hwf
        cases ms with
        | nil => rfl
        | cons kv ms' =>
          obtain ⟨k, v⟩ := kv
          have hlen : 2 * (membersChars ((k, v) :: ms')).length + 3 ≤ m := by
            rw [show marshalChars (Json.obj ((k, v) :: ms'))
              = '{' :: (membersChars ((k, v) :: ms') ++ ['}']) from rfl] at hn
            simp only [List.length_cons, List.length_append, List.length_singleton] at hn
            omega
          obtain ⟨t₂, ht₂⟩ : ∃ t₂, membersChars ((k, v) :: ms') = '"' :: t₂ := by
            cases ms' with
            | nil =>
              exact ⟨escapeChars k.data ++ '"' :: ':' :: marshalChars v, rfl⟩
            | cons kv₂ ms'' =>
              refine ⟨(escapeChars k.data ++ '"' :: ':' :: marshalChars v)
                ++ ',' :: membersChars (kv₂ :: ms''), ?_⟩
              rw [show membersChars ((k, v) :: kv₂ :: ms'')
                = ('"' :: (escapeChars k.data ++ '"' :: ':' :: marshalChars v))
                  ++ ',' :: membersChars (kv₂ :: ms'') from rfl]
              rfl
          have hinput : marshalChars (Json.obj ((k, v) :: ms')) ++ rest
              = '{' :: ('"' :: (t₂ ++ '}' :: rest)) := by
            rw [show marshalChars (Json.obj ((k, v) :: ms'))
              = '{' :: (membersChars ((k, v) :: ms') ++ ['}']) from rfl, ht₂]
            simp
          have hsk1 : skipWs ('{' :: ('"' :: (t₂ ++ '}' :: rest)))
              = '{' :: ('"' :: (t₂ ++ '}' :: rest)) := skipWs_cons _ _ (by decide)
          have hsk2 : skipWs ('"' :: (t₂ ++ '}' :: rest)) = '"' :: (t₂ ++ '}' :: rest) :=
            skipWs_cons _ _ (by decide)
          have hhd : headIs ('"' :: (t₂ ++ '}' :: rest)) '}' = false := rfl
          have hIH : parseObjItems m (membersChars ((k, v) :: ms') ++ '}' :: rest)
              = some ((k, v) :: ms', rest) := ihm ((k, v) :: ms') rest hmwf (by simp) hlen
          rw [hinput]
          simp only [parseVal, hsk1, reduceIte, hsk2, hhd, Bool.false_eq_true, if_false]
          have harg : '"' :: (t₂ ++ '}' :: rest)
              = membersChars ((k, v) :: ms') ++ '}' :: rest := by
            rw [ht₂]
            rfl
          rw [harg, hIH, Option.map_some']
          rw [mOfList_sorted _ hsort]
          rfl
    · intro xs rest hwf hne hn
      cases xs with
      | nil => exact absurd rfl hne
      | cons x xs' =>
        have hand := Bool.and_eq_true_iff.mp (by rw [itemsWF] at hwf; exact hwf)
        cases xs' with
        | nil =>
          have hIHv : parseVal m (marshalChars x ++ ']' :: rest) = some (x, ']' :: rest) :=
            ihv x (']' :: rest) hand.1 rfl
              (by rw [show itemsChars [x] = marshalChars x from rfl] at hn; omega)
          have hinput : itemsChars [x] ++ ']' :: rest = marshalChars x ++ ']' :: rest := rfl
          rw [hinput]
          have hsk : skipWs (']' :: rest) = ']' :: rest := skipWs_cons _ _ (by decide)
          simp only [parseArrItems, hIHv, hsk]
          rfl
        | cons y ys =>
          have hlen2 : 2 * (itemsChars (y :: ys)).length + 3 ≤ m ∧
              2 * (marshalChars x).length + 2 ≤ m := by
            rw [show itemsChars (x :: y :: ys)
              = marshalChars x ++ ',' :: itemsChars (y :: ys) from rfl] at hn
            simp only [List.length_append, List.length_cons] at hn
            omega
          have hIHv : parseVal m (marshalChars x ++ ',' :: (itemsChars (y :: ys) ++ ']' :: rest))
              = some (x, ',' :: (itemsChars (y :: ys) ++ ']' :: rest)) :=
            ihv x _ hand.1 rfl hlen2.2
          have hIHt : parseArrItems m (itemsChars (y :: ys) ++ ']' :: rest)
              = some (y :: ys, rest) := ihx (y :: ys) rest hand.2 (by simp) hlen2.1
          have hinput : itemsChars (x :: y :: ys) ++ ']' :: rest
              = marshalChars x ++ ',' :: (itemsChars (y :: ys) ++ ']' :: rest) := by
            rw [show itemsChars (x :: y :: ys)
              = marshalChars x ++ ',' :: itemsChars (y :: ys) from rfl]
            simp
          rw [hinput]
          have hsk : skipWs (',' :: (itemsChars (y :: ys) ++ ']' :: rest))
              = ',' :: (itemsChars (y :: ys) ++ ']' :: rest) := skipWs_cons _ _ (by decide)
          simp only [parseArrItems, hIHv, hsk, reduceIte, List.tail_cons, hIHt]
          rfl
    · intro ms rest hmwf hne hn
      cases ms with
      | nil => exact absurd rfl hne
      | cons kv ms' =>
        obtain ⟨k, v⟩ := kv
        have hand := Bool.and_eq_true_iff.mp (by rw [membersWF] at hmwf; exact hmwf)
        cases ms' with
        | nil =>
          have hlenv : 2 * (marshalChars v).length + 2 ≤ m := by
            rw [show membersChars [(k, v)]
              = '"' :: (escapeChars k.data ++ '"' :: ':' :: marshalChars v) from rfl] at hn
            simp only [List.length_cons, List.length_append] at hn
            omega
          have hinput : membersChars [(k, v)] ++ '}' :: rest
              = '"' :: (escapeChars k.data ++ '"' :: (':' :: (marshalChars v ++ '}' :: rest))) := by
            rw [show membersChars [(k, v)]
              = '"' :: (escapeChars k.data ++ '"' :: ':' :: marshalChars v) from rfl]
            simp
          rw [hinput]
          have hsk1 : skipWs ('"' :: (escapeChars k.data ++ '"' ::
              (':' :: (marshalChars v ++ '}' :: rest))))
              = '"' :: (escapeChars k.data ++ '"' :: (':' :: (marshalChars v ++ '}' :: rest))) :=
            skipWs_cons _ _ (by decide)
          have hstr := parseStrBody_escape k.data (':' :: (marshalChars v ++ '}' :: rest))
            ((escapeChars k.data ++ '"' :: (':' :: (marshalChars v ++ '}' :: rest))).length + 1)
            (by simp [List.length_append]; omega)
          have hskc : skipWs (':' :: (marshalChars v ++ '}' :: rest))
              = ':' :: (marshalChars v ++ '}' :: rest) := skipWs_cons _ _ (by decide)
          have hIHv : parseVal m (marshalChars v ++ '}' :: rest) = some (v, '}' :: rest) :=
            ihv v ('}' :: rest) hand.1 rfl hlenv
          have hsk2 : skipWs ('}' :: rest) = '}' :: rest := skipWs_cons _ _ (by decide)
          have hcol : headIs (':' :: (marshalChars v ++ '}' :: rest)) ':' = true := rfl
          have hcm : headIs ('}' :: rest) ',' = false := rfl
          have hcb : headIs ('}' :: rest) '}' = true := rfl
          simp only [parseObjItems, hsk1, reduceIte, hstr, hskc, hcol, if_true,
            List.tail_cons, hIHv, hsk2, hcm, Bool.false_eq_true, if_false, hcb]
        | cons kv₂ ms'' =>
          have hlen2 : 2 * (marshalChars v).length + 2 ≤ m ∧
              2 * (membersChars (kv₂ :: ms'')).length + 3 ≤ m := by
            rw [show membersChars ((k, v) :: kv₂ :: ms'')
              = ('"' :: (escapeChars k.data ++ '"' :: ':' :: marshalChars v))
                ++ ',' :: membersChars (kv₂ :: ms'') from rfl] at hn
            simp only [List.length_cons, List.length_append] at hn
            omega
          have hinput : membersChars ((k, v) :: kv₂ :: ms'') ++ '}' :: rest
              = '"' :: (escapeChars k.data ++ '"' :: (':' :: (marshalChars v
                ++ ',' :: (membersChars (kv₂ :: ms'') ++ '}' :: rest)))) := by
            rw [show membersChars ((k, v) :: kv₂ :: ms'')
              = ('"' :: (escapeChars k.data ++ '"' :: ':' :: marshalChars v))
                ++ ',' :: membersChars (kv₂ :: ms'') from rfl]
            simp
          rw [hinput]
          have hsk1 : skipWs ('"' :: (escapeChars k.data ++ '"' :: (':' :: (marshalChars v
              ++ ',' :: (membersChars (kv₂ :: ms'') ++ '}' :: rest)))))
              = '"' :: (escapeChars k.data ++ '"' :: (':' :: (marshalChars v
                ++ ',' :: (membersChars (kv₂ :: ms'') ++ '}' :: rest)))) :=
            skipWs_cons _ _ (by decide)
          have hstr := parseStrBody_escape k.data
            (':' :: (marshalChars v ++ ',' :: (membersChars (kv₂ :: ms'') ++ '}' :: rest)))
            ((escapeChars k.data ++ '"' :: (':' :: (marshalChars v
              ++ ',' :: (membersChars (kv₂ :: ms'') ++ '}' :: rest)))).length + 1)
            (by simp [List.length_append]; omega)
          have hskc : skipWs (':' :: (marshalChars v
              ++ ',' :: (membersChars (kv₂ :: ms'') ++ '}' :: rest)))
              = ':' :: (marshalChars v ++ ',' :: (membersChars (kv₂ :: ms'') ++ '}' :: rest)) :=
            skipWs_cons _ _ (by decide)
          have hIHv : parseVal m (marshalChars v
              ++ ',' :: (membersChars (kv₂ :: ms'') ++ '}' :: rest))
              = some (v, ',' :: (membersChars (kv₂ :: ms'') ++ '}' :: rest)) :=
            ihv v _ hand.1 rfl hlen2.1
          have hsk2 : skipWs (',' :: (membersChars (kv₂ :: ms'') ++ '}' :: rest))
              = ',' :: (membersChars (kv₂ :: ms'') ++ '}' :: rest) :=
            skipWs_cons _ _ (by decide)
          have hIHo : parseObjItems m (membersChars (kv₂ :: ms'') ++ '}' :: rest)
              = some (kv₂ :: ms'', rest) := ihm (kv₂ :: ms'') rest hand.2 (by simp) hlen2.2
          have hcol : headIs (':' :: (marshalChars v
              ++ ',' :: (membersChars (kv₂ :: ms'') ++ '}' :: rest))) ':' = true := rfl
          have hcm : headIs (',' :: (membersChars (kv₂ :: ms'') ++ '}' :: rest)) ',' = true := rfl
          simp only [parseObjItems, hsk1, reduceIte, hstr, hskc, hcol, if_true,
            List.tail_cons, hIHv, hsk2, hcm, hIHo]
          rfl

/-- Decoding the Go marshalling of a well-formed value recovers exactly that
value. -/
theorem jsonMarshal_unmarshal (v : Json) (h : jsonWF v = true) :
    jsonUnmarshal (jsonMarshal v) = some v := by
  rw [jsonMarshal, canonOrder_eq_self v h, jsonUnmarshal]
  have hpv : parseVal (2 * (String.mk (marshalChars v)).data.length + 2)
      (String.mk (marshalChars v)).data = some (v, []) := by
    have hr := (parse_marshal_round (2 * (marshalChars v).length + 2)).1 v [] h rfl le_rfl
    rw [List.append_nil] at hr
    exact hr
  simp only [hpv]
  rfl

/-- Claim C9: applying `RewriteBody` twice to an already-rewritten body yields
the same bytes as applying it once — whenever `RewriteBody` reports
`modified=true` with output bytes `b`, running it again on `b` returns exactly
`b` with `modified=true`: the output re-decodes to the value that produced it
(sorted keys, exact number literals), the per-record rewrite is idempotent,
the matched records still match, and the `records` map assignment and the
re-marshalling reproduce the same bytes. -/
theorem rewriteBody_idempotent (s b : String) (h : RewriteBody s = .ok (b, true)) :
    RewriteBody b = .ok (b, true) := by
  rw [RewriteBody] at h
  cases hu : jsonUnmarshal s with
  | none =>
    simp only [hu] at h
    rw [GoResult.ok.injEq, Prod.mk.injEq] at h
    exact absurd h.2 Bool.false_ne_true
  | some j =>
    simp only [hu] at h
    cases j with
    | null => exact GoResult.noConfusion h
    | bool b' => exact GoResult.noConfusion h
    | num l => exact GoResult.noConfusion h
    | str s' => exact GoResult.noConfusion h
    | arr xs => exact GoResult.noConfusion h
    | obj m' =>
      cases hr : mLookup m' "records" with
      | none =>
        simp only [hr] at h
        rw [GoResult.ok.injEq, Prod.mk.injEq] at h
        exact absurd h.2 Bool.false_ne_true
      | some records =>
        simp only [hr] at h
        cases records with
        | null => exact GoResult.noConfusion h
        | bool b' => exact GoResult.noConfusion h
        | num l => exact GoResult.noConfusion h
        | str s' => exact GoResult.noConfusion h
        | obj mm => exact GoResult.noConfusion h
        | arr elems =>
          rcases hrw : rwList elems with ⟨elems', u⟩
          simp only [hrw] at h
          cases u with
          | false =>
            simp only [Bool.false_eq_true, if_false] at h
            rw [GoResult.ok.injEq, Prod.mk.injEq] at h
            exact absurd h.2 Bool.false_ne_true
          | true =>
            simp only [if_true] at h
            rw [GoResult.ok.injEq, Prod.mk.injEq] at h
            obtain ⟨hb, -⟩ := h
            have hwfo : jsonWF (Json.obj m') = true := jsonUnmarshal_wf s _ hu
            rw [jsonWF] at hwfo
            obtain ⟨hsort, hmwf⟩ := Bool.and_eq_true_iff.mp hwfo
            have hwfarr : jsonWF (Json.arr elems) = true :=
              mLookup_membersWF m' "records" _ hmwf hr
            rw [jsonWF] at hwfarr
            have hre := rwList_eq elems
            rw [hrw, Prod.mk.injEq] at hre
            obtain ⟨helems, hany⟩ := hre
            have hwfel : itemsWF elems' = true := by
              rw [helems]
              exact itemsWF_map_rwElem elems hwfarr
            have hwf₀ : jsonWF (Json.obj (mInsert m' "records" (Json.arr elems'))) = true := by
              rw [jsonWF]
              rw [(mInsert_keysSorted m' "records" (Json.arr elems') hsort).1,
                membersWF_mInsert m' "records" (Json.arr elems') hmwf
                  (by rw [jsonWF]; exact hwfel)]
              rfl
            have hub : jsonUnmarshal b
                = some (Json.obj (mInsert m' "records" (Json.arr elems'))) := by
              rw [← hb]
              exact jsonMarshal_unmarshal _ hwf₀
            have hrw2 : rwList elems' = (elems', true) := by
              rw [rwList_eq, helems, map_rwElem_idem, any_elemMatches_map_rwElem,
                ← helems, ← hany]
            rw [RewriteBody]
            simp only [hub, mInsert_lookup, hrw2]
            rw [mInsert_idem, hb]
            rfl

/-- Witness for C9: the rewritten Scenario A body passes through the
transform unchanged and still reports modified. -/
theorem rewriteBody_idempotent_witness :
    RewriteBody bodyMatch = GoResult.ok (bodyMatchOut, true) ∧
    RewriteBody bodyMatchOut = GoResult.ok (bodyMatchOut, true) :=
  ⟨rfl, rewriteBody_idempotent bodyMatch bodyMatchOut rfl⟩
